import Mathlib

/-!
# Confluence export to Gollum migration: entity index and content rewriting

A shallow embedding of `main/migrate-confluence-to-gollum.go`.

Go strings and byte slices are sequences of bytes; they are modelled as lists of
natural numbers (each below 256 for real data).  String constants of the source
are written through `utf8`, the UTF-8 encoding of a Lean string literal.
Go maps are modelled as association lists with unique keys; the order of the
list stands for one of the iteration orders Go may choose.
-/

namespace Migrate

/-- A Go string or byte slice. -/
abbrev Bytes := List Nat

/-- Go's conversion of an integer to a string: the UTF-8 encoding of the code
point, and the encoding of U+FFFD for surrogates and values above U+10FFFF. -/
def encodeRune (r : Nat) : Bytes :=
  if r < 0x80 then [r]
  else if r < 0x800 then [0xC0 + r / 64, 0x80 + r % 64]
  else if (0xD800 ≤ r ∧ r ≤ 0xDFFF) ∨ 0x10FFFF < r then [0xEF, 0xBF, 0xBD]
  else if r < 0x10000 then [0xE0 + r / 4096, 0x80 + r / 64 % 64, 0x80 + r % 64]
  else [0xF0 + r / 262144, 0x80 + r / 4096 % 64, 0x80 + r / 64 % 64, 0x80 + r % 64]

/-- The bytes of a string constant. -/
def utf8 (s : String) : Bytes :=
  (s.toList.map (fun c => encodeRune c.toNat)).flatten

/-! ## Records of the dump (lines 48-110) -/

structure Property where
  Name : Bytes
  Value : Bytes
deriving DecidableEq

structure Element where
  Class : Bytes
  Package : Bytes
  Id : Bytes
deriving DecidableEq

structure Collection where
  Name : Bytes
  Class : Bytes
  Elements : List Element
deriving DecidableEq

structure Object where
  Id : Bytes
  Class : Bytes
  Package : Bytes
  Properties : List Property
  Collections : List Collection
deriving DecidableEq

structure ConfluencePage where
  Id : Bytes
  Title : Bytes
  BodyId : Bytes
  Version : Nat
  Attachments : List Element
deriving DecidableEq

structure ConfluenceBodyContent where
  Id : Bytes
  Body : Bytes
deriving DecidableEq

structure ConfluenceAttachment where
  Id : Bytes
  Title : Bytes
  Version : Nat
deriving DecidableEq

structure WikiPage where
  Title : Bytes
  Filename : Bytes
  Content : Bytes
  Path : Bytes
deriving DecidableEq

/-! ## Go maps -/

/-- A Go map with string keys. -/
abbrev GoMap (V : Type) := List (Bytes × V)

/-- The comma-ok lookup `v, ok := m[k]`. -/
def GoMap.get {V : Type} : GoMap V → Bytes → Option V
  | [], _ => none
  | (k, v) :: rest, key => if key = k then some v else GoMap.get rest key

/-- The plain lookup `m[k]`, giving the zero value of the type for an absent key. -/
def GoMap.getD {V : Type} (m : GoMap V) (key : Bytes) (zero : V) : V :=
  match m.get key with
  | some v => v
  | none => zero

/-- The assignment `m[k] = v`. -/
def GoMap.set {V : Type} : GoMap V → Bytes → V → GoMap V
  | [], key, val => [(key, val)]
  | (k, v) :: rest, key, val =>
    if key = k then (k, val) :: rest else (k, v) :: GoMap.set rest key val

/-! ## `binary.Uvarint` -/

/-- The loop of `binary.Uvarint`: `i` is the index of the byte read, `x` the
value accumulated so far (a `uint64`) and `s` the shift. -/
def uvarintLoop : Nat → Nat → Nat → Bytes → Nat × Int
  | _, _, _, [] => (0, 0)
  | i, x, s, b :: rest =>
    if i = 10 then (0, -((i : Int) + 1))
    else if b < 0x80 then
      if i = 9 ∧ b > 1 then (0, -((i : Int) + 1))
      else ((x ||| (b <<< s)) % 2 ^ 64, (i : Int) + 1)
    else uvarintLoop (i + 1) ((x ||| ((b &&& 0x7f) <<< s)) % 2 ^ 64) (s + 7) rest

/-- The call `binary.Uvarint(buf)`: the decoded value and the number of bytes read. -/
def Uvarint (buf : Bytes) : Nat × Int :=
  uvarintLoop 0 0 0 buf

/-! ## The index build (lines 184-248) -/

/-- The three maps filled by the first loop of `main`. -/
structure Index where
  confluencePages : GoMap ConfluencePage
  confluenceBodyContents : GoMap ConfluenceBodyContent
  confluenceAttachments : GoMap ConfluenceAttachment
deriving DecidableEq

/-- The maps as created at lines 184-186. -/
def Index.empty : Index := ⟨[], [], []⟩

/-- The test of line 190. -/
def isPage (obj : Object) : Bool :=
  obj.Class = utf8 "Page" && obj.Package = utf8 "com.atlassian.confluence.pages"

/-- The test of line 218. -/
def isBodyContent (obj : Object) : Bool :=
  obj.Class = utf8 "BodyContent" && obj.Package = utf8 "com.atlassian.confluence.core"

/-- The test of line 229. -/
def isAttachment (obj : Object) : Bool :=
  obj.Class = utf8 "Attachment" && obj.Package = utf8 "com.atlassian.confluence.pages"

/-- One turn of the loop of lines 193-200. -/
def pagePropStep (p : ConfluencePage) (prop : Property) : ConfluencePage :=
  let p1 := if prop.Name = utf8 "version" then { p with Version := (Uvarint prop.Value).1 } else p
  if prop.Name = utf8 "title" then { p1 with Title := prop.Value } else p1

/-- One turn of the loop of lines 201-208.  `coll.Elements[0]` on an empty
collection is a run-time panic, modelled by `none`. -/
def pageCollStep (p : ConfluencePage) (coll : Collection) : Option ConfluencePage :=
  let r1 : Option ConfluencePage :=
    if coll.Name = utf8 "bodyContents" then
      match coll.Elements with
      | [] => none
      | e :: _ => some { p with BodyId := e.Id }
    else some p
  match r1 with
  | none => none
  | some p1 =>
    if coll.Name = utf8 "attachments" then some { p1 with Attachments := coll.Elements }
    else some p1

/-- The loop of lines 201-208. -/
def pageCollLoop : ConfluencePage → List Collection → Option ConfluencePage
  | p, [] => some p
  | p, coll :: rest =>
    match pageCollStep p coll with
    | none => none
    | some p1 => pageCollLoop p1 rest

/-- The record `p` built at lines 191-208 for a Page object. -/
def pageOf (obj : Object) : Option ConfluencePage :=
  pageCollLoop (obj.Properties.foldl pagePropStep ⟨obj.Id, [], [], 0, []⟩) obj.Collections

/-- Lines 209-215: the record replaces the stored one only on a greater version. -/
def insertPage (m : GoMap ConfluencePage) (p : ConfluencePage) : GoMap ConfluencePage :=
  match m.get p.Title with
  | some previousP => if p.Version > previousP.Version then m.set p.Title p else m
  | none => m.set p.Title p

/-- One turn of the loop of lines 221-225. -/
def bodyPropStep (b : ConfluenceBodyContent) (prop : Property) : ConfluenceBodyContent :=
  if prop.Name = utf8 "body" then { b with Body := prop.Value } else b

/-- The record `b` built at lines 219-225. -/
def bodyContentOf (obj : Object) : ConfluenceBodyContent :=
  obj.Properties.foldl bodyPropStep ⟨obj.Id, []⟩

/-- One turn of the loop of lines 232-239. -/
def attPropStep (a : ConfluenceAttachment) (prop : Property) : ConfluenceAttachment :=
  let a1 := if prop.Name = utf8 "title" then { a with Title := prop.Value } else a
  if prop.Name = utf8 "version" then { a1 with Version := (Uvarint prop.Value).1 } else a1

/-- The record `a` built at lines 230-239. -/
def attachmentOf (obj : Object) : ConfluenceAttachment :=
  obj.Properties.foldl attPropStep ⟨obj.Id, [], 0⟩

/-- Lines 240-246. -/
def insertAttachment (m : GoMap ConfluenceAttachment) (key : Bytes)
    (a : ConfluenceAttachment) : GoMap ConfluenceAttachment :=
  match m.get key with
  | some previousA => if a.Version > previousA.Version then m.set key a else m
  | none => m.set key a

/-- The body of the loop of lines 188-248 for one object; `none` is the panic. -/
def indexStep (idx : Index) (obj : Object) : Option Index :=
  let r1 : Option Index :=
    if isPage obj then
      match pageOf obj with
      | none => none
      | some p => some { idx with confluencePages := insertPage idx.confluencePages p }
    else some idx
  match r1 with
  | none => none
  | some idx1 =>
    let idx2 : Index :=
      if isBodyContent obj then
        { idx1 with
          confluenceBodyContents := idx1.confluenceBodyContents.set obj.Id (bodyContentOf obj) }
      else idx1
    if isAttachment obj then
      some { idx2 with
        confluenceAttachments :=
          insertAttachment idx2.confluenceAttachments obj.Id (attachmentOf obj) }
    else some idx2

/-- The loop of lines 188-248 from a given state of the maps. -/
def indexLoop : Index → List Object → Option Index
  | idx, [] => some idx
  | idx, obj :: rest =>
    match indexStep idx obj with
    | none => none
    | some idx1 => indexLoop idx1 rest

/-- The index built from the objects of the dump. -/
def buildIndex (objs : List Object) : Option Index :=
  indexLoop Index.empty objs

/-! ## Library functions used by the rewriting passes

The regular expressions of the program are matched by Go on UTF-8 text.  Every
class in them is either a set of ASCII characters or the complement of one, so a
multi-byte character (all of whose bytes are at least 0x80) and an invalid byte
(which Go reads as U+FFFD) are members of exactly the complemented classes, byte
by byte.  Matching on bytes therefore gives the same matches.  Each pattern is
embedded as the function giving the leftmost-first match that starts at the head
of its input, and the scans `ReplaceAll` and `FindAllSubmatch` walk the input
from left to right, resuming after each match; no pattern matches the empty
string. -/

/-- The class `[a-z]`. -/
def isLower (b : Nat) : Bool := 97 ≤ b && b ≤ 122

/-- The class `[A-Z]`. -/
def isUpper (b : Nat) : Bool := 65 ≤ b && b ≤ 90

/-- The class `[0-9]`. -/
def isDigit (b : Nat) : Bool := 48 ≤ b && b ≤ 57

/-- The class `[A-Z0-9a-z]`. -/
def isAlnum (b : Nat) : Bool := isUpper b || isDigit b || isLower b

/-- The class `[^"]`. -/
def notQuote (b : Nat) : Bool := b != 34

/-- The scan of `Regexp.ReplaceAll` with a replacement free of group references:
`skip` counts the bytes of the current match still to be passed over. -/
def replaceAllGo (matchAt : Bytes → Option Nat) (repl : Bytes) : Nat → Bytes → Bytes
  | _, [] => []
  | skip + 1, _ :: rest => replaceAllGo matchAt repl skip rest
  | 0, b :: rest =>
    match matchAt (b :: rest) with
    | some n => repl ++ replaceAllGo matchAt repl (n - 1) rest
    | none => b :: replaceAllGo matchAt repl 0 rest

/-- The call `re.ReplaceAll(src, repl)`. -/
def regexReplaceAll (matchAt : Bytes → Option Nat) (repl : Bytes) (src : Bytes) : Bytes :=
  replaceAllGo matchAt repl 0 src

/-- The scan of `Regexp.FindAllSubmatch` for a pattern with one group: each
match is the pair of the whole match and of the group. -/
def findAllGo (matchAt : Bytes → Option (Nat × Bytes)) : Nat → Bytes → List (Bytes × Bytes)
  | _, [] => []
  | skip + 1, _ :: rest => findAllGo matchAt skip rest
  | 0, b :: rest =>
    match matchAt (b :: rest) with
    | some (n, g) => ((b :: rest).take n, g) :: findAllGo matchAt (n - 1) rest
    | none => findAllGo matchAt 0 rest

/-- The call `re.FindAllSubmatch(src, -1)`. -/
def regexFindAllSubmatch (matchAt : Bytes → Option (Nat × Bytes)) (src : Bytes) :
    List (Bytes × Bytes) :=
  findAllGo matchAt 0 src

/-- The scan of `bytes.Replace(s, old, new, -1)` and `strings.Replace` for a
non-empty `old`, which is the case at every call of the program. -/
def replaceGo (old new : Bytes) : Nat → Bytes → Bytes
  | _, [] => []
  | skip + 1, _ :: rest => replaceGo old new skip rest
  | 0, b :: rest =>
    if old.isPrefixOf (b :: rest) then new ++ replaceGo old new (old.length - 1) rest
    else b :: replaceGo old new 0 rest

/-- The call `bytes.Replace(s, old, new, -1)`. -/
def bytesReplace (s old new : Bytes) : Bytes :=
  replaceGo old new 0 s

/-- The function `isSeparator` of package `strings`, on ASCII.  On other bytes
the library consults Unicode tables; `slugify` never passes one (see
`slugMatch_replace_ascii`). -/
def isSeparator (r : Nat) : Bool :=
  if r ≤ 0x7F then
    if isDigit r then false
    else if isLower r then false
    else if isUpper r then false
    else if r = 95 then false
    else true
  else false

/-- The function `unicode.ToTitle` on ASCII: a lower-case letter becomes the
upper-case one. -/
def toTitle (r : Nat) : Nat :=
  if isLower r then r - 32 else r

/-- The closure mapped by `strings.Title` over the string, with its state `prev`. -/
def titleGo : Nat → Bytes → Bytes
  | _, [] => []
  | prev, r :: rest =>
    if isSeparator prev then toTitle r :: titleGo r rest else r :: titleGo r rest

/-- The call `strings.Title(s)`; `prev` starts as a space. -/
def stringsTitle (s : Bytes) : Bytes :=
  titleGo 32 s

/-! ## `toAscii` and `slugify` (lines 146-161) -/

def toAscii (str : Bytes) : Bytes :=
  let result := str
  let result := bytesReplace result (utf8 "ä") (utf8 "ae")
  let result := bytesReplace result (utf8 "ö") (utf8 "oe")
  let result := bytesReplace result (utf8 "ü") (utf8 "ue")
  result

/-- The pattern `[^A-Z0-9a-z]+` at the head of the input: the longest run of
bytes outside the class, when it is not empty. -/
def slugMatch (src : Bytes) : Option Nat :=
  let n := (src.takeWhile (fun b => !isAlnum b)).length
  if n = 0 then none else some n

def slugify (str : Bytes) : Bytes :=
  let result := toAscii str
  let result := regexReplaceAll slugMatch (utf8 " ") result
  let result := stringsTitle result
  let result := bytesReplace result (utf8 " ") (utf8 "")
  result

/-! ## The patterns of lines 251-253 -/

/-- The opening of the embed tag, up to the file name. -/
def imageOpen : Bytes := utf8 "<ac:image><ri:attachment ri:filename=\""

/-- The closing of the embed tag, after the file name. -/
def imageClose : Bytes := utf8 "\" /></ac:image>"

/-- The pattern `<ac:image><ri:attachment ri:filename="([^"]+)" /></ac:image>` at
the head of the input: the length of the match and the bytes of the group.  The
group is the longest run of bytes other than the quote; a shorter one is
followed by a byte that is not the quote of the closing part. -/
def imageMatch (src : Bytes) : Option (Nat × Bytes) :=
  if imageOpen.isPrefixOf src then
    let rest := src.drop imageOpen.length
    let name := rest.takeWhile notQuote
    if name.length = 0 then none
    else if imageClose.isPrefixOf (rest.drop name.length) then
      some (imageOpen.length + name.length + imageClose.length, name)
    else none
  else none

/-- The part `="[^"]+">` of an attribute followed by the end of the tag, at the
head of the input: the number of bytes it takes. -/
def attrValueClose : Bytes → Option Nat
  | 61 :: 34 :: rest =>
    let k := (rest.takeWhile notQuote).length
    if k = 0 then none
    else
      match rest.drop k with
      | 34 :: 62 :: _ => some (2 + k + 2)
      | _ => none
  | _ => none

/-- The part `[a-z]+((?m)[a-z]+="[^"]+")?>` of the tag pattern at the head of the
input.  The letters before `>` or `=` form one run; followed by `>` the run is
the tag name, followed by `=` it is split between the tag name and the attribute
name, each with one letter at least. -/
def tagNameClose (src : Bytes) : Option Nat :=
  let n := (src.takeWhile isLower).length
  match src.drop n with
  | 62 :: _ => if n = 0 then none else some (n + 1)
  | 61 :: rest =>
    if n < 2 then none
    else
      match attrValueClose (61 :: rest) with
      | some k => some (n + k)
      | none => none
  | _ => none

/-- The pattern `</?[a-z]+((?m)[a-z]+="[^"]+")?>` at the head of the input; the
flag `(?m)` bears on `^` and `$` only.  After `<` a slash is taken when there is
one: without it the tag name would have to start at the slash. -/
def tagsMatch : Bytes → Option Nat
  | 60 :: 47 :: rest => (tagNameClose rest).map (fun n => n + 2)
  | 60 :: rest => (tagNameClose rest).map (fun n => n + 1)
  | _ => none

/-- The pattern `<(span)( [a-z]+="[^"]+")?>` at the head of the input. -/
def attrMatch (src : Bytes) : Option Nat :=
  if (utf8 "<span").isPrefixOf src then
    match src.drop 5 with
    | 62 :: _ => some 6
    | 32 :: rest =>
      let n := (rest.takeWhile isLower).length
      if n = 0 then none
      else
        match attrValueClose (rest.drop n) with
        | some k => some (5 + 1 + n + k)
        | none => none
    | _ => none
  else none

/-! ## The output loop (lines 255-302)

File operations are recorded in program order, for the run in which each of
them and the converter succeed; the converter is a parameter. -/

inductive Effect where
  | Mkdir (path : Bytes)
  | Copy (src dst : Bytes)
  | WriteFile (path data : Bytes)
deriving DecidableEq

/-- The image reference of line 274. -/
def imgTag (w : WikiPage) (attachment : ConfluenceAttachment) : Bytes :=
  utf8 "<img src=\"" ++ w.Path ++ attachment.Title ++ utf8 "\" alt=\"" ++ attachment.Title
    ++ utf8 "\">"

/-- The source file of line 276. -/
def attFile (exportDir : Bytes) (page : ConfluencePage) (attachment : ConfluenceAttachment) :
    Bytes :=
  exportDir ++ utf8 "attachments/" ++ page.Id ++ utf8 "/" ++ attachment.Id ++ utf8 "/"
    ++ encodeRune attachment.Version

/-- The destination file of line 277. -/
def outFile (outputDir : Bytes) (w : WikiPage) (attachment : ConfluenceAttachment) : Bytes :=
  outputDir ++ w.Path ++ w.Filename ++ utf8 "/" ++ attachment.Title

/-- One turn of the loop of lines 271-284 over the attachment references of the
page, for the match `m`; the state is the body and the operations so far. -/
def attStep (exportDir outputDir : Bytes) (atts : GoMap ConfluenceAttachment)
    (page : ConfluencePage) (w : WikiPage) (m : Bytes × Bytes)
    (st : Bytes × List Effect) (att : Element) : Bytes × List Effect :=
  let attachment := atts.getD att.Id ⟨[], [], 0⟩
  if attachment.Title = m.2 then
    (bytesReplace st.1 m.1 (imgTag w attachment),
      st.2 ++ [Effect.Copy (attFile exportDir page attachment) (outFile outputDir w attachment)])
  else st

/-- One turn of the loop of lines 262-285 over the matches of the embed tag. -/
def matchStep (exportDir outputDir : Bytes) (atts : GoMap ConfluenceAttachment)
    (page : ConfluencePage) (w : WikiPage)
    (st : Bytes × List Effect) (m : Bytes × Bytes) : Bytes × List Effect :=
  page.Attachments.foldl (attStep exportDir outputDir atts page w m)
    (st.1, st.2 ++ [Effect.Mkdir (outputDir ++ w.Path ++ w.Filename)])

/-- The value `w` of lines 256-258. -/
def wikiPageOf (page : ConfluencePage) : WikiPage :=
  { Title := [], Filename := slugify page.Title, Content := [], Path := utf8 "/" }

/-- Lines 260-285: the body after the rewriting of the embed tags, and the
operations issued meanwhile.  The matches are those of the body as stored. -/
def rewriteEmbeds (exportDir outputDir : Bytes) (idx : Index) (page : ConfluencePage) :
    Bytes × List Effect :=
  let w := wikiPageOf page
  let bodyContent := idx.confluenceBodyContents.getD page.BodyId ⟨[], []⟩
  let html := bodyContent.Body
  (regexFindAllSubmatch imageMatch html).foldl
    (matchStep exportDir outputDir idx.confluenceAttachments page w) (html, [])

/-- The document file of line 300. -/
def docFile (outputDir : Bytes) (w : WikiPage) : Bytes :=
  outputDir ++ w.Filename ++ utf8 ".md"

/-- Line 289; the group of the template `<$1>` is always `span`. -/
def stripAttrs (html : Bytes) : Bytes :=
  regexReplaceAll attrMatch (utf8 "<span>") html

/-- Line 298. -/
def stripTags (markdown : Bytes) : Bytes :=
  regexReplaceAll tagsMatch [] markdown

/-- The body of the loop of lines 255-302 for one page. -/
def processPage (exportDir outputDir : Bytes) (html2markdown : Bytes → Bytes) (idx : Index)
    (page : ConfluencePage) : List Effect :=
  let w := wikiPageOf page
  let r := rewriteEmbeds exportDir outputDir idx page
  let html := stripAttrs r.1
  let markdown := html2markdown html
  let markdown1 := stripTags markdown
  r.2 ++ [Effect.WriteFile (docFile outputDir w) markdown1]

/-- The operations of the whole run on the objects of the dump, `none` when the
index build panics. -/
def migrate (exportDir outputDir : Bytes) (html2markdown : Bytes → Bytes)
    (objs : List Object) : Option (List Effect) :=
  match buildIndex objs with
  | none => none
  | some idx =>
    some ((idx.confluencePages.map
      (fun kv => processPage exportDir outputDir html2markdown idx kv.2)).flatten)

/-! ## Notions used to state the properties -/

/-- Every bodyContents collection of a Page object has an element. -/
def bodiesPresent (objs : List Object) : Prop :=
  ∀ obj ∈ objs, isPage obj = true →
    ∀ coll ∈ obj.Collections, coll.Name = utf8 "bodyContents" → coll.Elements ≠ []

instance (objs : List Object) : Decidable (bodiesPresent objs) := by
  unfold bodiesPresent
  infer_instance

/-- The Page records built from the objects of the dump, in order. -/
def pageRecords (objs : List Object) : List ConfluencePage :=
  objs.filterMap (fun obj => if isPage obj then pageOf obj else none)

/-- The entry of a key after one more record: kept unless the record is newer. -/
def keepNewer {V : Type} (ver : V → Nat) (cur : Option V) (r : V) : Option V :=
  match cur with
  | none => some r
  | some c => if ver r > ver c then some r else some c

/-- The entry of title `t` after one more Page record. -/
def pageEntryStep (t : Bytes) (cur : Option ConfluencePage) (r : ConfluencePage) :
    Option ConfluencePage :=
  if r.Title = t then keepNewer ConfluencePage.Version cur r else cur

/-- The Attachment objects of identity `i`. -/
def isAttachmentWith (i : Bytes) (obj : Object) : Bool :=
  isAttachment obj && obj.Id == i

/-- The entry of an identity after one more Attachment object of that identity. -/
def attEntryStep (cur : Option ConfluenceAttachment) (obj : Object) :
    Option ConfluenceAttachment :=
  keepNewer ConfluenceAttachment.Version cur (attachmentOf obj)

/-- Some substring of `s` matches the tag pattern: the pattern matches at the
head of a tail of `s`. -/
def containsTag (s : Bytes) : Bool :=
  s.tails.any (fun t => (tagsMatch t).isSome)

/-- A piece of converter output: a run of text or a tag. -/
inductive Segment where
  | text (t : Bytes)
  | tag (g : Bytes)
deriving DecidableEq

/-- The bytes of a piece. -/
def Segment.bytes : Segment → Bytes
  | Segment.text t => t
  | Segment.tag g => g

/-- The bytes of a piece that are not part of a tag. -/
def Segment.kept : Segment → Bytes
  | Segment.text t => t
  | Segment.tag _ => []

/-- The text runs hold no `<` and the tags are matched in full by the pattern. -/
def Segment.flat : Segment → Prop
  | Segment.text t => 60 ∉ t
  | Segment.tag g => tagsMatch g = some g.length

instance (s : Segment) : Decidable s.flat := by
  cases s <;> (unfold Segment.flat; infer_instance)

/-! ## The slug as specified -/

/-- The transliteration table of the specification, applied in one pass from
left to right: ä, ö and ü become ae, oe and ue, every other byte is kept. -/
def transliterate : Bytes → Bytes
  | [] => []
  | [b] => [b]
  | b :: c :: rest =>
    if [b, c] = utf8 "ä" then utf8 "ae" ++ transliterate rest
    else if [b, c] = utf8 "ö" then utf8 "oe" ++ transliterate rest
    else if [b, c] = utf8 "ü" then utf8 "ue" ++ transliterate rest
    else b :: transliterate (c :: rest)

/-- The upper-casing of a character of the specification. -/
def upperCase (b : Nat) : Nat :=
  if 97 ≤ b ∧ b ≤ 122 then b - 32 else b

/-- A word with its first character upper-cased. -/
def capitalize : Bytes → Bytes
  | [] => []
  | b :: w => upperCase b :: w

/-- The words of a string: its maximal runs of characters of `[A-Za-z0-9]`. -/
def alnumWords (s : Bytes) : List Bytes :=
  (s.splitOnP (fun b => !isAlnum b)).filter (fun w => !w.isEmpty)

/-- The slug as the specification describes it. -/
def slugifySpec (s : Bytes) : Bytes :=
  ((alnumWords (transliterate s)).map capitalize).flatten

/-- The three passes of `slugify` after `toAscii` in one scan: `start` tells
whether the next letter or digit starts a word. -/
def slugScan : Bool → Bytes → Bytes
  | _, [] => []
  | start, b :: rest =>
    if isAlnum b then (if start then toTitle b else b) :: slugScan false rest
    else slugScan true rest

/-- The head of the string is not the second byte of a transliterated letter. -/
def plainHead (s : Bytes) : Prop :=
  ∀ h, s.head? = some h → h ≠ 164 ∧ h ≠ 182 ∧ h ≠ 188

/-! ## Objects of example dumps -/

/-- A Page object with its title, version text, body references and attachment
references, as the XML decoder delivers it. -/
def pageObject (id title version : Bytes) (bodies atts : List Bytes) : Object :=
  { Id := id, Class := utf8 "Page", Package := utf8 "com.atlassian.confluence.pages",
    Properties := [⟨utf8 "title", title⟩, ⟨utf8 "version", version⟩],
    Collections :=
      [⟨utf8 "bodyContents", utf8 "java.util.Collection",
          bodies.map (fun i => ⟨utf8 "BodyContent", utf8 "com.atlassian.confluence.core", i⟩)⟩,
        ⟨utf8 "attachments", utf8 "java.util.Collection",
          atts.map (fun i => ⟨utf8 "Attachment", utf8 "com.atlassian.confluence.pages", i⟩)⟩] }

/-- A BodyContent object. -/
def bodyObject (id body : Bytes) : Object :=
  { Id := id, Class := utf8 "BodyContent", Package := utf8 "com.atlassian.confluence.core",
    Properties := [⟨utf8 "body", body⟩], Collections := [] }

/-- An Attachment object. -/
def attachmentObject (id title version : Bytes) : Object :=
  { Id := id, Class := utf8 "Attachment", Package := utf8 "com.atlassian.confluence.pages",
    Properties := [⟨utf8 "title", title⟩, ⟨utf8 "version", version⟩], Collections := [] }

/-- The dump of the end-to-end scenario: two Page objects titled Home, the older
one first, their bodies, and the attachment of the newer one. -/
def homeDump (b1 b2 : Bytes) : List Object :=
  [pageObject (utf8 "P1") (utf8 "Home") (utf8 "3") [utf8 "B1"] [utf8 "A1"],
    pageObject (utf8 "P2") (utf8 "Home") (utf8 "5") [utf8 "B2"] [utf8 "A2"],
    bodyObject (utf8 "B1") b1, bodyObject (utf8 "B2") b2,
    attachmentObject (utf8 "A2") (utf8 "logo.png") (utf8 "1")]

/-- The same dump with the newer Page object first. -/
def homeDumpSwapped (b1 b2 : Bytes) : List Object :=
  [pageObject (utf8 "P2") (utf8 "Home") (utf8 "5") [utf8 "B2"] [utf8 "A2"],
    pageObject (utf8 "P1") (utf8 "Home") (utf8 "3") [utf8 "B1"] [utf8 "A1"],
    bodyObject (utf8 "B1") b1, bodyObject (utf8 "B2") b2,
    attachmentObject (utf8 "A2") (utf8 "logo.png") (utf8 "1")]

/-- A dump with a Page object whose bodyContents collection has no element,
followed by a sound page and its body. -/
def danglingDump : List Object :=
  [pageObject (utf8 "P1") (utf8 "Broken") (utf8 "1") [] [],
    pageObject (utf8 "P2") (utf8 "Home") (utf8 "1") [utf8 "B2"] [],
    bodyObject (utf8 "B2") (utf8 "<p>hello</p>")]

/-- A dump with one page titled My Page, whose body embeds the attachment
diagram.png; the version text of the attachment is 12. -/
def diagramDump : List Object :=
  [pageObject (utf8 "7") (utf8 "My Page") (utf8 "3") [utf8 "8"] [utf8 "9"],
    bodyObject (utf8 "8")
      (utf8 "<p>see <ac:image><ri:attachment ri:filename=\"diagram.png\" /></ac:image></p>"),
    attachmentObject (utf8 "9") (utf8 "diagram.png") (utf8 "12")]

/-- The index of `diagramDump`. -/
def diagramIndex : Index :=
  { confluencePages :=
      [(utf8 "My Page", ⟨utf8 "7", utf8 "My Page", utf8 "8", 51,
          [⟨utf8 "Attachment", utf8 "com.atlassian.confluence.pages", utf8 "9"⟩]⟩)],
    confluenceBodyContents :=
      [(utf8 "8", ⟨utf8 "8",
          utf8 "<p>see <ac:image><ri:attachment ri:filename=\"diagram.png\" /></ac:image></p>"⟩)],
    confluenceAttachments := [(utf8 "9", ⟨utf8 "9", utf8 "diagram.png", 49⟩)] }

/-- The page of `diagramDump`. -/
def diagramPage : ConfluencePage :=
  ⟨utf8 "7", utf8 "My Page", utf8 "8", 51,
    [⟨utf8 "Attachment", utf8 "com.atlassian.confluence.pages", utf8 "9"⟩]⟩

/-- The image reference written for an embed of logo.png. -/
def logoImg : Bytes := utf8 "<img src=\"/logo.png\" alt=\"logo.png\">"

/-- The body of the newer Home page after the rewriting: each embed tag found by
the scan that names logo.png is replaced throughout. -/
def homeBody (b2 : Bytes) : Bytes :=
  (regexFindAllSubmatch imageMatch b2).foldl
    (fun html m => if m.2 = utf8 "logo.png" then bytesReplace html m.1 logoImg else html) b2

/-- The file operations before the document is written: for each embed tag found
in the body the directory of the page, and for one naming logo.png the copy of
the attachment A2 of the page P2. -/
def homeJobs (exportDir outputDir b2 : Bytes) : List Effect :=
  ((regexFindAllSubmatch imageMatch b2).map (fun m =>
    Effect.Mkdir (outputDir ++ utf8 "/Home") ::
      (if m.2 = utf8 "logo.png" then
        [Effect.Copy (exportDir ++ utf8 "attachments/P2/A2/1")
          (outputDir ++ utf8 "/Home/logo.png")]
      else []))).flatten

/-- The newer Page record of the scenario. -/
def homePage : ConfluencePage :=
  ⟨utf8 "P2", utf8 "Home", utf8 "B2", 53,
    [⟨utf8 "Attachment", utf8 "com.atlassian.confluence.pages", utf8 "A2"⟩]⟩

/-- The index of the scenario dump. -/
def homeIndex (b1 b2 : Bytes) : Index :=
  { confluencePages := [(utf8 "Home", homePage)],
    confluenceBodyContents := [(utf8 "B1", ⟨utf8 "B1", b1⟩), (utf8 "B2", ⟨utf8 "B2", b2⟩)],
    confluenceAttachments := [(utf8 "A2", ⟨utf8 "A2", utf8 "logo.png", 49⟩)] }

/-! ## Notions for the later properties -/

/-- The value of a base-128 little-endian integer: each byte gives seven bits,
the lowest first. -/
def leb128 : Bytes → Nat
  | [] => 0
  | b :: rest => b % 128 + 128 * leb128 rest

/-- The buffer of the last property of the object named version, empty when
there is none. -/
def versionBuffer (obj : Object) : Bytes :=
  obj.Properties.foldl (fun buf prop => if prop.Name = utf8 "version" then prop.Value else buf) []

/-- The BodyContent objects of identity `i`. -/
def isBodyContentWith (i : Bytes) (obj : Object) : Bool :=
  isBodyContent obj && obj.Id == i

/-- A dump whose page Home lists two attachments titled logo.png, A1 before A2,
and whose body embeds logo.png once. -/
def collisionDump : List Object :=
  [pageObject (utf8 "P1") (utf8 "Home") (utf8 "1") [utf8 "B1"] [utf8 "A1", utf8 "A2"],
    bodyObject (utf8 "B1")
      (utf8 "<ac:image><ri:attachment ri:filename=\"logo.png\" /></ac:image>"),
    attachmentObject (utf8 "A1") (utf8 "logo.png") (utf8 "1"),
    attachmentObject (utf8 "A2") (utf8 "logo.png") (utf8 "2")]

/-- The pattern occurs in the string. -/
def occursIn (pat s : Bytes) : Bool :=
  s.tails.any (fun t => pat.isPrefixOf t)

/-- The embed tag naming a file. -/
def embedTag (name : Bytes) : Bytes := imageOpen ++ name ++ imageClose

/-- Some reference of the attachments collection of the page resolves in the map
to a record whose title is `name`. -/
def resolvesTo (atts : GoMap ConfluenceAttachment) (page : ConfluencePage) (name : Bytes) :
    Bool :=
  page.Attachments.any (fun att =>
    match atts.get att.Id with
    | some a => a.Title == name
    | none => false)

/-- The stored body of a page, empty when the reference does not resolve. -/
def storedBody (idx : Index) (page : ConfluencePage) : Bytes :=
  (idx.confluenceBodyContents.getD page.BodyId ⟨[], []⟩).Body

/-- A file name made of the closing part of an embed tag, after its quote. -/
def closingName : Bytes := utf8 " /></ac:image>"

/-- A file name made of the opening part of an embed tag, before its quote. -/
def openingName : Bytes := utf8 "<ac:image><ri:attachment ri:filename="

/-- A body with the embed tag of `closingName`, then the embed tag of
`openingName`, whose closing quote starts a second occurrence of the first tag. -/
def overlapBody : Bytes := embedTag closingName ++ embedTag openingName ++ imageClose

/-- A dump with a page of body `overlapBody` whose only attachment is titled
`closingName`. -/
def overlapDump : List Object :=
  [pageObject (utf8 "P1") (utf8 "Home") (utf8 "1") [utf8 "B1"] [utf8 "A1"],
    bodyObject (utf8 "B1") overlapBody,
    attachmentObject (utf8 "A1") closingName (utf8 "1")]

/-- The page of `overlapDump`. -/
def overlapPage : ConfluencePage :=
  ⟨utf8 "P1", utf8 "Home", utf8 "B1", 49,
    [⟨utf8 "Attachment", utf8 "com.atlassian.confluence.pages", utf8 "A1"⟩]⟩

/-- The index of `overlapDump`. -/
def overlapIndex : Index :=
  { confluencePages := [(utf8 "Home", overlapPage)],
    confluenceBodyContents := [(utf8 "B1", ⟨utf8 "B1", overlapBody⟩)],
    confluenceAttachments := [(utf8 "A1", ⟨utf8 "A1", closingName, 49⟩)] }

/-- The start of an opening span tag. -/
def spanOpen : Bytes := utf8 "<span"

/-- An attribute of a tag: its name and its value. -/
structure TagAttr where
  name : Bytes
  value : Bytes
deriving DecidableEq

/-- The attribute has a name of lower-case letters and a value without double
quote and without `<`, neither of them empty. -/
def TagAttr.plain (a : TagAttr) : Prop :=
  a.name ≠ [] ∧ (∀ b ∈ a.name, isLower b = true) ∧
    a.value ≠ [] ∧ (∀ b ∈ a.value, notQuote b = true ∧ b ≠ 60)

instance (a : TagAttr) : Decidable a.plain := by
  unfold TagAttr.plain
  infer_instance

/-- The text of an attribute in a tag: a space, the name, `=` and the value
between double quotes. -/
def TagAttr.text (a : TagAttr) : Bytes :=
  utf8 " " ++ (a.name ++ (utf8 "=\"" ++ (a.value ++ utf8 "\"")))

/-- The opening span tag with the given attributes. -/
def spanTag (attrs : List TagAttr) : Bytes :=
  utf8 "<span" ++ ((attrs.map TagAttr.text).flatten ++ utf8 ">")

/-! ## The entity index -/

theorem GoMap.get_set {V : Type} (m : GoMap V) (k key : Bytes) (v : V) :
    (m.set k v).get key = if key = k then some v else m.get key := by
  induction m with
  | nil => simp [GoMap.set, GoMap.get]
  | cons hd tl ih =>
    obtain ⟨k1, v1⟩ := hd
    by_cases h : k = k1
    · subst h
      by_cases h2 : key = k <;> simp [GoMap.set, GoMap.get, h2]
    · by_cases h2 : key = k1
      · subst h2
        have : ¬ key = k := fun e => h e.symm
        simp [GoMap.set, GoMap.get, h, this]
      · simp [GoMap.set, GoMap.get, h, h2, ih]

theorem insertPage_get (m : GoMap ConfluencePage) (p : ConfluencePage) (t : Bytes) :
    (insertPage m p).get t =
      if p.Title = t then keepNewer ConfluencePage.Version (m.get t) p else m.get t := by
  unfold insertPage
  by_cases h : p.Title = t
  · subst h
    cases hg : m.get p.Title with
    | none => simp [keepNewer, GoMap.get_set]
    | some c =>
      by_cases hv : p.Version > c.Version <;> simp [keepNewer, GoMap.get_set, hv, hg]
  · have h2 : ¬ t = p.Title := fun e => h e.symm
    cases hg : m.get p.Title with
    | none => simp [GoMap.get_set, h, h2]
    | some c =>
      by_cases hv : p.Version > c.Version <;> simp [GoMap.get_set, hv, h, h2]

theorem insertAttachment_get (m : GoMap ConfluenceAttachment) (a : ConfluenceAttachment)
    (k i : Bytes) :
    (insertAttachment m k a).get i =
      if k = i then keepNewer ConfluenceAttachment.Version (m.get i) a else m.get i := by
  unfold insertAttachment
  by_cases h : k = i
  · subst h
    cases hg : m.get k with
    | none => simp [keepNewer, GoMap.get_set]
    | some c =>
      by_cases hv : a.Version > c.Version <;> simp [keepNewer, GoMap.get_set, hv, hg]
  · have h2 : ¬ i = k := fun e => h e.symm
    cases hg : m.get k with
    | none => simp [GoMap.get_set, h, h2]
    | some c =>
      by_cases hv : a.Version > c.Version <;> simp [GoMap.get_set, hv, h, h2]

theorem pageCollLoop_isSome (colls : List Collection) (p : ConfluencePage)
    (h : ∀ coll ∈ colls, coll.Name = utf8 "bodyContents" → coll.Elements ≠ []) :
    ∃ q, pageCollLoop p colls = some q := by
  induction colls generalizing p with
  | nil => exact ⟨p, rfl⟩
  | cons c cs ih =>
    have hc := h c (List.mem_cons_self _ _)
    have hcs : ∀ coll ∈ cs, coll.Name = utf8 "bodyContents" → coll.Elements ≠ [] :=
      fun coll hm => h coll (List.mem_cons_of_mem _ hm)
    have hstep : ∃ p1, pageCollStep p c = some p1 := by
      unfold pageCollStep
      by_cases hn : c.Name = utf8 "bodyContents"
      · cases he : c.Elements with
        | nil => exact absurd he (hc hn)
        | cons e es =>
          rw [if_pos hn]
          dsimp only
          split <;> exact ⟨_, rfl⟩
      · rw [if_neg hn]
        dsimp only
        split <;> exact ⟨_, rfl⟩
    obtain ⟨p1, hp1⟩ := hstep
    obtain ⟨q, hq⟩ := ih p1 hcs
    exact ⟨q, by simp [pageCollLoop, hp1, hq]⟩


theorem indexStep_entries (idx : Index) (obj : Object) (t i : Bytes)
    (h : isPage obj = true →
      ∀ coll ∈ obj.Collections, coll.Name = utf8 "bodyContents" → coll.Elements ≠ []) :
    ∃ idx1, indexStep idx obj = some idx1 ∧
      idx1.confluencePages.get t =
        (pageRecords [obj]).foldl (pageEntryStep t) (idx.confluencePages.get t) ∧
      idx1.confluenceAttachments.get i =
        ([obj].filter (isAttachmentWith i)).foldl attEntryStep
          (idx.confluenceAttachments.get i) := by
  unfold indexStep
  by_cases hp : isPage obj = true
  · obtain ⟨p, hpo⟩ := pageCollLoop_isSome obj.Collections
      (obj.Properties.foldl pagePropStep ⟨obj.Id, [], [], 0, []⟩) (h hp)
    have hpo2 : pageOf obj = some p := hpo
    by_cases ha : isAttachment obj = true
    · by_cases hi : obj.Id = i <;>
        simp [hp, hpo2, ha, hi, pageRecords, isAttachmentWith, pageEntryStep, attEntryStep]
      all_goals (split <;> simp [insertPage_get, insertAttachment_get, hi])
    · simp [hp, hpo2, ha, pageRecords, isAttachmentWith, pageEntryStep, attEntryStep]
      split <;> simp [insertPage_get, insertAttachment_get]
  · by_cases ha : isAttachment obj = true
    · by_cases hi : obj.Id = i <;>
        simp [hp, ha, hi, pageRecords, isAttachmentWith, pageEntryStep, attEntryStep]
      all_goals (split <;> simp [insertPage_get, insertAttachment_get, hi])
    · simp [hp, ha, pageRecords, isAttachmentWith, pageEntryStep, attEntryStep]
      split <;> simp [insertPage_get, insertAttachment_get]

theorem pageRecords_cons (obj : Object) (objs : List Object) :
    pageRecords (obj :: objs) = pageRecords [obj] ++ pageRecords objs := by
  unfold pageRecords
  rw [← List.filterMap_append]
  rfl

theorem indexLoop_entries (objs : List Object) (idx : Index) (t i : Bytes)
    (h : bodiesPresent objs) :
    ∃ idx1, indexLoop idx objs = some idx1 ∧
      idx1.confluencePages.get t =
        (pageRecords objs).foldl (pageEntryStep t) (idx.confluencePages.get t) ∧
      idx1.confluenceAttachments.get i =
        (objs.filter (isAttachmentWith i)).foldl attEntryStep
          (idx.confluenceAttachments.get i) := by
  induction objs generalizing idx with
  | nil => exact ⟨idx, rfl, rfl, rfl⟩
  | cons obj rest ih =>
    obtain ⟨idx1, h1, hp1, ha1⟩ :=
      indexStep_entries idx obj t i (h obj (List.mem_cons_self _ _))
    obtain ⟨idx2, h2, hp2, ha2⟩ :=
      ih idx1 (fun o ho => h o (List.mem_cons_of_mem _ ho))
    refine ⟨idx2, by simp [indexLoop, h1, h2], ?_, ?_⟩
    · rw [hp2, hp1, pageRecords_cons obj rest, List.foldl_append]
    · rw [ha2, ha1, ← List.foldl_append, ← List.filter_append]
      rfl

theorem entry_earliest_newest (t : Bytes) (recs : List ConfluencePage)
    (init : Option ConfluencePage) (h : init = none → ∃ r ∈ recs, r.Title = t) :
    (∃ c, init = some c ∧ recs.foldl (pageEntryStep t) init = some c ∧
        ∀ r ∈ recs, r.Title = t → r.Version ≤ c.Version) ∨
    (∃ before p after, recs = before ++ p :: after ∧
        recs.foldl (pageEntryStep t) init = some p ∧ p.Title = t ∧
        (∀ c, init = some c → c.Version < p.Version) ∧
        (∀ r ∈ before, r.Title = t → r.Version < p.Version) ∧
        (∀ r ∈ after, r.Title = t → r.Version ≤ p.Version)) := by
  induction recs generalizing init with
  | nil =>
    cases init with
    | none => obtain ⟨r, hr, _⟩ := h rfl; cases hr
    | some c => exact Or.inl ⟨c, rfl, rfl, (fun r hr => by cases hr)⟩
  | cons r rs ih =>
    by_cases ht : r.Title = t
    · cases init with
      | none =>
        have hstep : pageEntryStep t none r = some r := by simp [pageEntryStep, keepNewer, ht]
        rcases ih (some r) (fun e => by cases e) with ⟨c, hc, hres, hall⟩ | ⟨b, p, a, hsplit, hres, hpt, hlt, hb, ha⟩
        · cases hc
          refine Or.inr ⟨[], r, rs, rfl, ?_, ht, (fun c e => by cases e), (fun x hx => by cases hx), hall⟩
          simp [List.foldl, hstep, hres]
        · refine Or.inr ⟨r :: b, p, a, by simp [hsplit], ?_, hpt, (fun c e => by cases e), ?_, ha⟩
          · simp [List.foldl, hstep, hres]
          · intro x hx hxt
            rcases List.mem_cons.mp hx with e | e
            · subst e; exact hlt _ rfl
            · exact hb x e hxt
      | some c =>
        by_cases hv : r.Version > c.Version
        · have hstep : pageEntryStep t (some c) r = some r := by
            simp [pageEntryStep, keepNewer, ht, hv]
          rcases ih (some r) (fun e => by cases e) with ⟨c2, hc, hres, hall⟩ | ⟨b, p, a, hsplit, hres, hpt, hlt, hb, ha⟩
          · cases hc
            refine Or.inr ⟨[], r, rs, rfl, ?_, ht, ?_, (fun x hx => by cases hx), hall⟩
            · simp [List.foldl, hstep, hres]
            · intro c3 e; cases e; exact hv
          · refine Or.inr ⟨r :: b, p, a, by simp [hsplit], ?_, hpt, ?_, ?_, ha⟩
            · simp [List.foldl, hstep, hres]
            · intro c3 e; cases e
              have := hlt r rfl
              omega
            · intro x hx hxt
              rcases List.mem_cons.mp hx with e | e
              · subst e; exact hlt _ rfl
              · exact hb x e hxt
        · have hstep : pageEntryStep t (some c) r = some c := by
            simp [pageEntryStep, keepNewer, ht, hv]
          rcases ih (some c) (fun e => by cases e) with ⟨c2, hc, hres, hall⟩ | ⟨b, p, a, hsplit, hres, hpt, hlt, hb, ha⟩
          · cases hc
            refine Or.inl ⟨c, rfl, ?_, ?_⟩
            · simp [List.foldl, hstep, hres]
            · intro x hx hxt
              rcases List.mem_cons.mp hx with e | e
              · subst e; omega
              · exact hall x e hxt
          · refine Or.inr ⟨r :: b, p, a, by simp [hsplit], ?_, hpt, hlt, ?_, ha⟩
            · simp [List.foldl, hstep, hres]
            · intro x hx hxt
              rcases List.mem_cons.mp hx with e | e
              · subst e
                have := hlt c rfl
                omega
              · exact hb x e hxt
    · have hstep : pageEntryStep t init r = init := by simp [pageEntryStep, ht]
      have h2 : init = none → ∃ x ∈ rs, x.Title = t := by
        intro e
        obtain ⟨x, hx, hxt⟩ := h e
        rcases List.mem_cons.mp hx with e2 | e2
        · subst e2; exact absurd hxt ht
        · exact ⟨x, e2, hxt⟩
      rcases ih init h2 with ⟨c, hc, hres, hall⟩ | ⟨b, p, a, hsplit, hres, hpt, hlt, hb, ha⟩
      · refine Or.inl ⟨c, hc, ?_, ?_⟩
        · simp [List.foldl, hstep, hres]
        · intro x hx hxt
          rcases List.mem_cons.mp hx with e | e
          · subst e; exact absurd hxt ht
          · exact hall x e hxt
      · refine Or.inr ⟨r :: b, p, a, by simp [hsplit], ?_, hpt, hlt, ?_, ha⟩
        · simp [List.foldl, hstep, hres]
        · intro x hx hxt
          rcases List.mem_cons.mp hx with e | e
          · subst e; exact absurd hxt ht
          · exact hb x e hxt

/-- C1. Page version precedence: when every bodyContents collection of a Page
object has an element, the index build succeeds and the entry of a title carried
by some Page record is the earliest of the records of that title with the
greatest version: the records of that title before it are strictly older, those
after it are not newer. -/
theorem page_version_precedence (objs : List Object) (t : Bytes)
    (hwf : bodiesPresent objs) (ht : ∃ r ∈ pageRecords objs, r.Title = t) :
    ∃ idx, buildIndex objs = some idx ∧
      ∃ before p after, pageRecords objs = before ++ p :: after ∧
        idx.confluencePages.get t = some p ∧ p.Title = t ∧
        (∀ r ∈ before, r.Title = t → r.Version < p.Version) ∧
        (∀ r ∈ after, r.Title = t → r.Version ≤ p.Version) := by
  obtain ⟨idx, hb, hp, _⟩ := indexLoop_entries objs Index.empty t [] hwf
  refine ⟨idx, hb, ?_⟩
  rcases entry_earliest_newest t (pageRecords objs) none (fun _ => ht) with
    ⟨c, hc, _, _⟩ | ⟨b, p, a, hsplit, hres, hpt, _, hbf, haf⟩
  · cases hc
  · refine ⟨b, p, a, hsplit, ?_, hpt, hbf, haf⟩
    rw [hp]
    exact hres

/-- C1, at the scenario dump: both Page records are titled Home and the entry is
the second one. -/
theorem page_version_precedence_witness :
    bodiesPresent (homeDump [] []) ∧
    (∃ r ∈ pageRecords (homeDump [] []), r.Title = utf8 "Home") ∧
    ∃ idx, buildIndex (homeDump [] []) = some idx ∧
      ∃ before p after, pageRecords (homeDump [] []) = before ++ p :: after ∧
        idx.confluencePages.get (utf8 "Home") = some p ∧ p.Title = utf8 "Home" ∧
        (∀ r ∈ before, r.Title = utf8 "Home" → r.Version < p.Version) ∧
        (∀ r ∈ after, r.Title = utf8 "Home" → r.Version ≤ p.Version) :=
  ⟨by decide, by decide,
    page_version_precedence (homeDump [] []) (utf8 "Home") (by decide) (by decide)⟩

theorem keepNewer_pair (a b : ConfluenceAttachment) :
    keepNewer ConfluenceAttachment.Version
        (keepNewer ConfluenceAttachment.Version none a) b =
      some (if a.Version < b.Version then b else a) := by
  by_cases hv : a.Version < b.Version
  · simp [keepNewer, hv]
  · simp [keepNewer, hv]

/-- C2. Attachment dedup is order-independent: take two Attachment objects of one
identity with different decoded versions and two dumps in which they are the
only Attachment objects of that identity, in the one order and in the other,
among arbitrary other objects, no Page object having an empty bodyContents
collection.  Both index builds succeed and give the identity the same entry, the
record of the higher version. -/
theorem attachment_dedup_order_independent (objs₁ objs₂ : List Object) (a b : Object)
    (h₁ : bodiesPresent objs₁) (h₂ : bodiesPresent objs₂)
    (hne : (attachmentOf a).Version ≠ (attachmentOf b).Version)
    (hf₁ : objs₁.filter (isAttachmentWith a.Id) = [a, b])
    (hf₂ : objs₂.filter (isAttachmentWith a.Id) = [b, a]) :
    ∃ idx₁ idx₂, buildIndex objs₁ = some idx₁ ∧ buildIndex objs₂ = some idx₂ ∧
      idx₁.confluenceAttachments.get a.Id = idx₂.confluenceAttachments.get a.Id ∧
      idx₁.confluenceAttachments.get a.Id =
        some (if (attachmentOf a).Version < (attachmentOf b).Version then attachmentOf b
          else attachmentOf a) := by
  obtain ⟨idx₁, hb₁, _, ha₁⟩ := indexLoop_entries objs₁ Index.empty [] a.Id h₁
  obtain ⟨idx₂, hb₂, _, ha₂⟩ := indexLoop_entries objs₂ Index.empty [] a.Id h₂
  rw [hf₁] at ha₁
  rw [hf₂] at ha₂
  have e₁ : idx₁.confluenceAttachments.get a.Id =
      some (if (attachmentOf a).Version < (attachmentOf b).Version then attachmentOf b
          else attachmentOf a) := by
    rw [ha₁]
    exact keepNewer_pair _ _
  have e₂ : idx₂.confluenceAttachments.get a.Id =
      some (if (attachmentOf a).Version < (attachmentOf b).Version then attachmentOf b
          else attachmentOf a) := by
    rw [ha₂]
    have := keepNewer_pair (attachmentOf b) (attachmentOf a)
    simp only [List.foldl, attEntryStep, Index.empty, GoMap.get]
    rw [this]
    by_cases hv : (attachmentOf a).Version < (attachmentOf b).Version
    · have : ¬ (attachmentOf b).Version < (attachmentOf a).Version := by omega
      simp [hv, this]
    · have : (attachmentOf b).Version < (attachmentOf a).Version := by omega
      simp [hv, this]
  exact ⟨idx₁, idx₂, hb₁, hb₂, e₁.trans e₂.symm, e₁⟩


/-- C2, at two dumps holding the attachment A2 at the version texts 1 and 2, in
both orders, with a page between them. -/
theorem attachment_dedup_order_independent_witness :
    ∃ idx₁ idx₂,
      buildIndex [attachmentObject (utf8 "A2") (utf8 "logo.png") (utf8 "1"),
        pageObject (utf8 "P2") (utf8 "Home") (utf8 "5") [utf8 "B2"] [utf8 "A2"],
        attachmentObject (utf8 "A2") (utf8 "logo2.png") (utf8 "2")] = some idx₁ ∧
      buildIndex [attachmentObject (utf8 "A2") (utf8 "logo2.png") (utf8 "2"),
        attachmentObject (utf8 "A2") (utf8 "logo.png") (utf8 "1"),
        bodyObject (utf8 "B2") []] = some idx₂ ∧
      idx₁.confluenceAttachments.get (utf8 "A2") = idx₂.confluenceAttachments.get (utf8 "A2") ∧
      idx₁.confluenceAttachments.get (utf8 "A2") = some ⟨utf8 "A2", utf8 "logo2.png", 50⟩ :=
  attachment_dedup_order_independent
    [attachmentObject (utf8 "A2") (utf8 "logo.png") (utf8 "1"),
      pageObject (utf8 "P2") (utf8 "Home") (utf8 "5") [utf8 "B2"] [utf8 "A2"],
      attachmentObject (utf8 "A2") (utf8 "logo2.png") (utf8 "2")]
    [attachmentObject (utf8 "A2") (utf8 "logo2.png") (utf8 "2"),
      attachmentObject (utf8 "A2") (utf8 "logo.png") (utf8 "1"),
      bodyObject (utf8 "B2") []]
    (attachmentObject (utf8 "A2") (utf8 "logo.png") (utf8 "1"))
    (attachmentObject (utf8 "A2") (utf8 "logo2.png") (utf8 "2"))
    (by decide) (by decide) (by decide) (by decide) (by decide)

theorem pageCollLoop_panics (colls : List Collection) (p : ConfluencePage) (coll : Collection)
    (hcoll : coll ∈ colls) (hn : coll.Name = utf8 "bodyContents") (he : coll.Elements = []) :
    pageCollLoop p colls = none := by
  induction colls generalizing p with
  | nil => cases hcoll
  | cons c cs ih =>
    cases hstep : pageCollStep p c with
    | none => simp [pageCollLoop, hstep]
    | some p1 =>
      rcases List.mem_cons.mp hcoll with e | e
      · subst e
        simp [pageCollStep, hn, he] at hstep
      · simp [pageCollLoop, hstep, ih p1 e]

theorem indexLoop_panics (objs : List Object) (idx : Index) (obj : Object) (coll : Collection)
    (hobj : obj ∈ objs) (hp : isPage obj = true) (hcoll : coll ∈ obj.Collections)
    (hn : coll.Name = utf8 "bodyContents") (he : coll.Elements = []) :
    indexLoop idx objs = none := by
  induction objs generalizing idx with
  | nil => cases hobj
  | cons o os ih =>
    cases hstep : indexStep idx o with
    | none => simp [indexLoop, hstep]
    | some idx1 =>
      rcases List.mem_cons.mp hobj with e | e
      · subst e
        have : pageOf obj = none := pageCollLoop_panics _ _ coll hcoll hn he
        simp [indexStep, hp, this] at hstep
      · simp [indexLoop, hstep, ih idx1 e]

/-- C3. A Page object with an empty bodyContents collection makes the index build
panic, wherever it stands in the dump: no index is built and the run produces
nothing, for any page of the dump. -/
theorem empty_body_collection_panics (objs : List Object) (obj : Object) (coll : Collection)
    (hobj : obj ∈ objs) (hp : isPage obj = true) (hcoll : coll ∈ obj.Collections)
    (hn : coll.Name = utf8 "bodyContents") (he : coll.Elements = []) :
    buildIndex objs = none ∧
    ∀ (exportDir outputDir : Bytes) (html2markdown : Bytes → Bytes),
      migrate exportDir outputDir html2markdown objs = none := by
  have h : buildIndex objs = none :=
    indexLoop_panics objs Index.empty obj coll hobj hp hcoll hn he
  exact ⟨h, fun _ _ _ => by simp [migrate, h]⟩

/-- C3, at a dump whose first Page object has an empty bodyContents collection and
whose second page is sound: nothing is built, while the dump without the first
object is indexed. -/
theorem empty_body_collection_panics_witness :
    (buildIndex danglingDump = none ∧
      ∀ (exportDir outputDir : Bytes) (html2markdown : Bytes → Bytes),
        migrate exportDir outputDir html2markdown danglingDump = none) ∧
    (buildIndex danglingDump.tail).isSome = true :=
  ⟨empty_body_collection_panics danglingDump
      (pageObject (utf8 "P1") (utf8 "Broken") (utf8 "1") [] [])
      ⟨utf8 "bodyContents", utf8 "java.util.Collection", []⟩
      (by decide) (by decide) (by decide) (by decide) (by decide),
    by decide⟩

/-! ## The stripping of leftover tags -/

theorem replaceAllGo_skip (f : Bytes → Option Nat) (repl : Bytes) (k : Nat) (l : Bytes) :
    replaceAllGo f repl k l = replaceAllGo f repl 0 (l.drop k) := by
  induction l generalizing k with
  | nil => cases k <;> simp [replaceAllGo]
  | cons b rest ih =>
    cases k with
    | zero => simp
    | succ k => simp [replaceAllGo, ih k]

theorem tagsMatch_head (b : Nat) (rest : Bytes) (h : b ≠ 60) : tagsMatch (b :: rest) = none := by
  unfold tagsMatch
  split
  · rename_i heq
    simp at heq
    exact absurd heq.1 h
  · rename_i heq
    simp at heq
    exact absurd heq.1 h
  · rfl

theorem takeWhile_append_stop (p : Nat → Bool) (l r : Bytes) (x : Nat) (tl : Bytes)
    (h : l.drop (l.takeWhile p).length = x :: tl) :
    (l ++ r).takeWhile p = l.takeWhile p := by
  induction l with
  | nil => simp at h
  | cons b rest ih =>
    by_cases hb : p b = true
    · simp [List.takeWhile, hb] at h ⊢
      exact ih h
    · simp [List.takeWhile, hb]

theorem drop_span_append (p : Nat → Bool) (l r : Bytes) (x : Nat) (tl : Bytes)
    (h : l.drop (l.takeWhile p).length = x :: tl) :
    (l ++ r).drop ((l ++ r).takeWhile p).length = x :: (tl ++ r) := by
  rw [takeWhile_append_stop p l r x tl h]
  rw [List.drop_append_of_le_length (List.takeWhile_prefix p).length_le, h]
  rfl


theorem attrValueClose_append (l r : Bytes) (k : Nat) (h : attrValueClose l = some k) :
    attrValueClose (l ++ r) = some k := by
  unfold attrValueClose at h
  split at h
  · rename_i rest
    by_cases hk : (rest.takeWhile notQuote).length = 0
    · simp [hk] at h
    · simp only [hk, if_false] at h
      split at h
      · rename_i tl hdrop
        have h1 := takeWhile_append_stop notQuote rest r 34 (62 :: tl) hdrop
        have h2 := drop_span_append notQuote rest r 34 (62 :: tl) hdrop
        simp only [List.cons_append, attrValueClose, h1, hk, if_false]
        rw [h1] at h2
        simp only [h2, List.cons_append]
        exact h
      · cases h
  · cases h


theorem tagNameClose_append (l r : Bytes) (k : Nat) (h : tagNameClose l = some k) :
    tagNameClose (l ++ r) = some k := by
  unfold tagNameClose at h
  simp only at h
  split at h
  · rename_i tl hdrop
    have h1 := takeWhile_append_stop isLower l r 62 tl hdrop
    have h2 := drop_span_append isLower l r 62 tl hdrop
    unfold tagNameClose
    simp only
    rw [h2, h1]
    exact h
  · rename_i tl hdrop
    have h1 := takeWhile_append_stop isLower l r 61 tl hdrop
    have h2 := drop_span_append isLower l r 61 tl hdrop
    unfold tagNameClose
    simp only
    rw [h2, h1]
    by_cases hn : (l.takeWhile isLower).length < 2
    · simp [hn] at h
    · simp only [hn, if_false] at h ⊢
      cases hav : attrValueClose (61 :: tl) with
      | none => simp [hav] at h
      | some k2 =>
        have := attrValueClose_append (61 :: tl) r k2 hav
        simp only [List.cons_append] at this
        simp only [hav] at h
        simp only [this]
        exact h
  · cases h

theorem tagNameClose_nil : tagNameClose [] = none := by
  simp [tagNameClose]

theorem tagsMatch_append (g r : Bytes) (k : Nat) (h : tagsMatch g = some k) :
    tagsMatch (g ++ r) = some k := by
  unfold tagsMatch at h
  split at h
  · rename_i rest
    cases hc : tagNameClose rest with
    | none => simp [hc] at h
    | some n =>
      simp [tagsMatch, tagNameClose_append rest r n hc]
      simpa [hc] using h
  · rename_i rest hnot
    cases hc : tagNameClose rest with
    | none => simp [hc] at h
    | some n =>
      cases rest with
      | nil => simp [tagNameClose_nil] at hc
      | cons c rest2 =>
        have hc47 : c ≠ 47 := by
          intro e
          exact hnot rest2 (by rw [e])
        have happ := tagNameClose_append (c :: rest2) r n hc
        simp only [List.cons_append] at happ ⊢
        unfold tagsMatch
        split
        · rename_i heq
          simp at heq
          exact absurd heq.1 hc47
        · rename_i heq
          simp at heq
          obtain ⟨rfl⟩ := heq
          simp [happ]
          simpa [hc] using h
        · rename_i _ hno
          exact absurd rfl (hno _)
  · cases h


theorem stripTags_text (t rest : Bytes) (h : 60 ∉ t) :
    replaceAllGo tagsMatch [] 0 (t ++ rest) = t ++ replaceAllGo tagsMatch [] 0 rest := by
  induction t with
  | nil => rfl
  | cons b tl ih =>
    have hb : b ≠ 60 := fun e => h (by simp [e])
    have htl : 60 ∉ tl := fun e => h (List.mem_cons_of_mem _ e)
    show replaceAllGo tagsMatch [] 0 (b :: (tl ++ rest)) =
      b :: (tl ++ replaceAllGo tagsMatch [] 0 rest)
    rw [replaceAllGo, tagsMatch_head b (tl ++ rest) hb]
    simp only
    rw [ih htl]

theorem stripTags_tag (g rest : Bytes) (h : tagsMatch g = some g.length) :
    replaceAllGo tagsMatch [] 0 (g ++ rest) = replaceAllGo tagsMatch [] 0 rest := by
  cases g with
  | nil => simp [tagsMatch] at h
  | cons b tl =>
    have happ := tagsMatch_append (b :: tl) rest _ h
    simp only [List.cons_append] at happ
    show replaceAllGo tagsMatch [] 0 (b :: (tl ++ rest)) = replaceAllGo tagsMatch [] 0 rest
    rw [replaceAllGo, happ]
    simp only [List.nil_append, List.length_cons, Nat.add_sub_cancel]
    rw [replaceAllGo_skip]
    simp

theorem containsTag_of_no_lt (s : Bytes) (h : 60 ∉ s) : containsTag s = false := by
  induction s with
  | nil => simp [containsTag, tagsMatch]
  | cons b tl ih =>
    have hb : b ≠ 60 := fun e => h (by simp [e])
    have htl : 60 ∉ tl := fun e => h (List.mem_cons_of_mem _ e)
    have := ih htl
    unfold containsTag at this ⊢
    simp only [List.tails, List.any_cons, tagsMatch_head b tl hb, Option.isSome_none,
      Bool.false_or]
    exact this

/-- C7, amended. For converter output made of tags that the pattern matches in
full and of text runs without the byte `<`, the stripping pass returns the text
runs, concatenated, and no substring of the result matches the tag pattern. -/
theorem stripTags_flat_complete (segs : List Segment) (h : ∀ s ∈ segs, s.flat) :
    stripTags (segs.map Segment.bytes).flatten = (segs.map Segment.kept).flatten ∧
    containsTag (stripTags (segs.map Segment.bytes).flatten) = false := by
  have h1 : stripTags (segs.map Segment.bytes).flatten = (segs.map Segment.kept).flatten := by
    unfold stripTags regexReplaceAll
    induction segs with
    | nil => rfl
    | cons s rest ih =>
      have hs := h s (List.mem_cons_self _ _)
      have hrest := ih (fun x hx => h x (List.mem_cons_of_mem _ hx))
      cases s with
      | text t =>
        simp only [List.map_cons, List.flatten_cons, Segment.bytes, Segment.kept]
        rw [stripTags_text t _ hs, hrest]
      | tag g =>
        simp only [List.map_cons, List.flatten_cons, Segment.bytes, Segment.kept,
          List.nil_append]
        rw [stripTags_tag g _ hs, hrest]
  refine ⟨h1, ?_⟩
  rw [h1]
  apply containsTag_of_no_lt
  intro hmem
  obtain ⟨l, hl, hin⟩ := List.mem_flatten.mp hmem
  obtain ⟨s, hs, rfl⟩ := List.mem_map.mp hl
  have hf := h s hs
  cases s with
  | text t => exact hf hin
  | tag g => simp [Segment.kept] at hin

/-- C7, at a paragraph with a bold word. -/
theorem stripTags_flat_complete_witness :
    (∀ s ∈ [Segment.tag (utf8 "<p>"), Segment.text (utf8 "a > b, "),
        Segment.tag (utf8 "<bclass=\"x\">"), Segment.text (utf8 "bold"),
        Segment.tag (utf8 "</b>"), Segment.tag (utf8 "</p>")], s.flat) ∧
    stripTags (utf8 "<p>a > b, <bclass=\"x\">bold</b></p>") = utf8 "a > b, bold" ∧
    containsTag (stripTags (utf8 "<p>a > b, <bclass=\"x\">bold</b></p>")) = false :=
  ⟨by decide,
    stripTags_flat_complete
      [Segment.tag (utf8 "<p>"), Segment.text (utf8 "a > b, "),
        Segment.tag (utf8 "<bclass=\"x\">"), Segment.text (utf8 "bold"),
        Segment.tag (utf8 "</b>"), Segment.tag (utf8 "</p>")] (by decide)⟩

/-- C7, as stated, fails: removing the tag inside `<<b>b>` joins the bytes around
it into the tag `<b>`, which the single pass leaves in the document. -/
theorem stripTags_leaves_tag :
    stripTags (utf8 "<<b>b>") = utf8 "<b>" ∧
    containsTag (stripTags (utf8 "<<b>b>")) = true := by
  decide

/-! ## The rewriting of embed tags and the paths -/

theorem diagramIndex_eq : buildIndex diagramDump = some diagramIndex := by decide

/-- C4. At the page My Page whose body embeds diagram.png, the rewritten body
holds an image reference with the link target /diagram.png, without the
subdirectory MyPage in which the file is copied. -/
theorem embed_link_target_lacks_slug :
    buildIndex diagramDump = some diagramIndex ∧
    diagramIndex.confluencePages.get (utf8 "My Page") = some diagramPage ∧
    (rewriteEmbeds (utf8 "export/") (utf8 "out") diagramIndex diagramPage).1 =
      utf8 "<p>see <img src=\"/diagram.png\" alt=\"diagram.png\"></p>" ∧
    (rewriteEmbeds (utf8 "export/") (utf8 "out") diagramIndex diagramPage).2 =
      [Effect.Mkdir (utf8 "out/MyPage"),
        Effect.Copy (utf8 "export/attachments/7/9/1") (utf8 "out/MyPage/diagram.png")] ∧
    slugify diagramPage.Title ++ utf8 "/diagram.png" = utf8 "MyPage/diagram.png" := by
  decide

/-- C5. At the dump whose attachment 9 has the version text 12, the index holds
the version 49, the first byte of the text, and the source of the copy ends in
the one-character segment 1: neither the decimal digits of the stored number nor
those of the text.  A stored version 12 would give the single byte 0x0C. -/
theorem copy_source_not_decimal :
    buildIndex diagramDump = some diagramIndex ∧
    diagramIndex.confluenceAttachments.get (utf8 "9") =
      some ⟨utf8 "9", utf8 "diagram.png", 49⟩ ∧
    attFile (utf8 "export/") diagramPage ⟨utf8 "9", utf8 "diagram.png", 49⟩ =
      utf8 "export/attachments/7/9/1" ∧
    attFile (utf8 "export/") diagramPage ⟨utf8 "9", utf8 "diagram.png", 49⟩ ≠
      utf8 "export/attachments/7/9/49" ∧
    attFile (utf8 "export/") diagramPage ⟨utf8 "9", utf8 "diagram.png", 12⟩ =
      utf8 "export/attachments/7/9/" ++ [12] ∧
    attFile (utf8 "export/") diagramPage ⟨utf8 "9", utf8 "diagram.png", 12⟩ ≠
      utf8 "export/attachments/7/9/12" := by
  decide

/-- C6. At the output root out, given without a trailing slash, the document of
the page My Page is written at outMyPage.md, beside the root, while the
directory of its attachments is out/MyPage, inside it. -/
theorem document_path_lacks_separator :
    docFile (utf8 "out") (wikiPageOf diagramPage) = utf8 "outMyPage.md" ∧
    docFile (utf8 "out") (wikiPageOf diagramPage) ≠
      utf8 "out" ++ utf8 "/" ++ slugify (utf8 "My Page") ++ utf8 ".md" ∧
    migrate (utf8 "export/") (utf8 "out") id diagramDump =
      some [Effect.Mkdir (utf8 "out/MyPage"),
        Effect.Copy (utf8 "export/attachments/7/9/1") (utf8 "out/MyPage/diagram.png"),
        Effect.WriteFile (utf8 "outMyPage.md")
          (utf8 "see <img src=\"/diagram.png\" alt=\"diagram.png\">")] := by
  decide

/-! ## The end-to-end scenario -/

theorem homeDump_index (b1 b2 : Bytes) : buildIndex (homeDump b1 b2) = some (homeIndex b1 b2) := by
  rfl

theorem homeDumpSwapped_index (b1 b2 : Bytes) :
    buildIndex (homeDumpSwapped b1 b2) = some (homeIndex b1 b2) := by
  rfl


theorem home_attFile (exportDir : Bytes) :
    attFile exportDir homePage ⟨utf8 "A2", utf8 "logo.png", 49⟩ =
      exportDir ++ utf8 "attachments/P2/A2/1" := by
  unfold attFile
  simp only [List.append_assoc]
  rfl

theorem home_outFile (outputDir : Bytes) :
    outFile outputDir (wikiPageOf homePage) ⟨utf8 "A2", utf8 "logo.png", 49⟩ =
      outputDir ++ utf8 "/Home/logo.png" := by
  unfold outFile
  simp only [List.append_assoc]
  rfl

theorem home_dir (outputDir : Bytes) :
    outputDir ++ (wikiPageOf homePage).Path ++ (wikiPageOf homePage).Filename =
      outputDir ++ utf8 "/Home" := by
  simp only [List.append_assoc]
  rfl

theorem home_matchStep (exportDir outputDir b1 b2 : Bytes) (st : Bytes × List Effect)
    (m : Bytes × Bytes) :
    matchStep exportDir outputDir (homeIndex b1 b2).confluenceAttachments homePage
        (wikiPageOf homePage) st m =
      (if m.2 = utf8 "logo.png" then bytesReplace st.1 m.1 logoImg else st.1,
        st.2 ++ Effect.Mkdir (outputDir ++ utf8 "/Home") ::
          (if m.2 = utf8 "logo.png" then
            [Effect.Copy (exportDir ++ utf8 "attachments/P2/A2/1")
              (outputDir ++ utf8 "/Home/logo.png")]
          else [])) := by
  have hget : (homeIndex b1 b2).confluenceAttachments.getD (utf8 "A2") ⟨[], [], 0⟩ =
      ⟨utf8 "A2", utf8 "logo.png", 49⟩ := rfl
  have himg : imgTag (wikiPageOf homePage) ⟨utf8 "A2", utf8 "logo.png", 49⟩ = logoImg := by
    decide
  have hatts : homePage.Attachments =
      [⟨utf8 "Attachment", utf8 "com.atlassian.confluence.pages", utf8 "A2"⟩] := rfl
  unfold matchStep
  rw [hatts, home_dir]
  simp only [List.foldl, attStep, hget, himg, home_attFile, home_outFile]
  by_cases h : m.2 = utf8 "logo.png"
  · have h2 : utf8 "logo.png" = m.2 := h.symm
    simp [h]
  · have h2 : ¬ utf8 "logo.png" = m.2 := fun e => h e.symm
    simp [h, h2]

theorem home_fold (exportDir outputDir b1 b2 : Bytes) (ms : List (Bytes × Bytes))
    (st : Bytes × List Effect) :
    ms.foldl (matchStep exportDir outputDir (homeIndex b1 b2).confluenceAttachments homePage
        (wikiPageOf homePage)) st =
      (ms.foldl
          (fun html m => if m.2 = utf8 "logo.png" then bytesReplace html m.1 logoImg else html)
          st.1,
        st.2 ++ (ms.map (fun m =>
          Effect.Mkdir (outputDir ++ utf8 "/Home") ::
            (if m.2 = utf8 "logo.png" then
              [Effect.Copy (exportDir ++ utf8 "attachments/P2/A2/1")
                (outputDir ++ utf8 "/Home/logo.png")]
            else []))).flatten) := by
  induction ms generalizing st with
  | nil => simp
  | cons m rest ih =>
    simp only [List.foldl_cons, home_matchStep, ih, List.map_cons, List.flatten_cons,
      List.append_assoc]

theorem home_rewriteEmbeds (exportDir outputDir b1 b2 : Bytes) :
    rewriteEmbeds exportDir outputDir (homeIndex b1 b2) homePage =
      (homeBody b2, homeJobs exportDir outputDir b2) := by
  have hbody : (homeIndex b1 b2).confluenceBodyContents.getD homePage.BodyId ⟨[], []⟩ =
      ⟨utf8 "B2", b2⟩ := rfl
  unfold rewriteEmbeds
  simp only [hbody, home_fold, homeBody, homeJobs, List.nil_append]

theorem home_processPage (exportDir outputDir : Bytes) (html2markdown : Bytes → Bytes)
    (b1 b2 : Bytes) :
    processPage exportDir outputDir html2markdown (homeIndex b1 b2) homePage =
      homeJobs exportDir outputDir b2 ++
        [Effect.WriteFile (outputDir ++ utf8 "Home.md")
          (stripTags (html2markdown (stripAttrs (homeBody b2))))] := by
  have hdoc : docFile outputDir (wikiPageOf homePage) = outputDir ++ utf8 "Home.md" := by
    unfold docFile
    simp only [List.append_assoc]
    rfl
  unfold processPage
  simp only [home_rewriteEmbeds, hdoc]

/-- The run on the dump of the two Home pages (version texts 3 and 5), their
bodies and the attachment A2 titled logo.png, in either order of the two pages,
whatever the bodies, the roots and the converter: one document is written, at
the output root directly followed by Home.md with no separator put between
them, computed from the body B2 alone; before it, for each embed tag found in
B2, the directory Home of the output root is made and, when the tag names
logo.png, A2 is copied from the directory of the page P2 to Home/logo.png under
the output root.  No operation depends on the body B1 or names P1 or A1. -/
theorem home_migrate (exportDir outputDir : Bytes) (html2markdown : Bytes → Bytes)
    (b1 b2 : Bytes) :
    migrate exportDir outputDir html2markdown (homeDump b1 b2) =
      some (homeJobs exportDir outputDir b2 ++
        [Effect.WriteFile (outputDir ++ utf8 "Home.md")
          (stripTags (html2markdown (stripAttrs (homeBody b2))))]) ∧
    migrate exportDir outputDir html2markdown (homeDumpSwapped b1 b2) =
      migrate exportDir outputDir html2markdown (homeDump b1 b2) ∧
    (∀ e ∈ homeJobs exportDir outputDir b2,
      e = Effect.Mkdir (outputDir ++ utf8 "/Home") ∨
      e = Effect.Copy (exportDir ++ utf8 "attachments/P2/A2/1")
        (outputDir ++ utf8 "/Home/logo.png")) ∧
    ((regexFindAllSubmatch imageMatch b2).any (fun m => m.2 = utf8 "logo.png") = true →
      Effect.Copy (exportDir ++ utf8 "attachments/P2/A2/1")
        (outputDir ++ utf8 "/Home/logo.png") ∈ homeJobs exportDir outputDir b2) := by
  have h1 : migrate exportDir outputDir html2markdown (homeDump b1 b2) =
      some (homeJobs exportDir outputDir b2 ++
        [Effect.WriteFile (outputDir ++ utf8 "Home.md")
          (stripTags (html2markdown (stripAttrs (homeBody b2))))]) := by
    unfold migrate
    rw [homeDump_index]
    have hpages : (homeIndex b1 b2).confluencePages = [(utf8 "Home", homePage)] := rfl
    simp only [hpages, List.map_cons, List.map_nil, List.flatten_cons, List.flatten_nil,
      List.append_nil, home_processPage]
  have h2 : migrate exportDir outputDir html2markdown (homeDumpSwapped b1 b2) =
      migrate exportDir outputDir html2markdown (homeDump b1 b2) := by
    unfold migrate
    rw [homeDump_index, homeDumpSwapped_index]
  refine ⟨h1, h2, ?_, ?_⟩
  · intro e he
    unfold homeJobs at he
    obtain ⟨l, hl, hin⟩ := List.mem_flatten.mp he
    obtain ⟨m, _, rfl⟩ := List.mem_map.mp hl
    by_cases hm : m.2 = utf8 "logo.png"
    · simp only [hm, if_true] at hin
      rcases List.mem_cons.mp hin with e1 | e1
      · exact Or.inl e1
      · exact Or.inr (List.mem_singleton.mp e1)
    · simp only [hm, if_false] at hin
      exact Or.inl (List.mem_singleton.mp hin)
  · intro hany
    obtain ⟨m, hm, hname⟩ := List.any_eq_true.mp hany
    have hname2 : m.2 = utf8 "logo.png" := by simpa using hname
    unfold homeJobs
    apply List.mem_flatten.mpr
    refine ⟨_, List.mem_map.mpr ⟨m, hm, rfl⟩, ?_⟩
    simp [hname2]

/-- The operations of the run, in full, at a body B2 that embeds logo.png once
and at the roots export/ and out/, each with its trailing slash. -/
theorem home_migrate_slash_root :
    migrate (utf8 "export/") (utf8 "out/") id
        (homeDump (utf8 "<p>old</p>")
          (utf8 "<ac:image><ri:attachment ri:filename=\"logo.png\" /></ac:image>")) =
      some [Effect.Mkdir (utf8 "out//Home"),
        Effect.Copy (utf8 "export/attachments/P2/A2/1") (utf8 "out//Home/logo.png"),
        Effect.WriteFile (utf8 "out/Home.md") (utf8 "<img src=\"/logo.png\" alt=\"logo.png\">")] :=
  (home_migrate (utf8 "export/") (utf8 "out/") id (utf8 "<p>old</p>")
    (utf8 "<ac:image><ri:attachment ri:filename=\"logo.png\" /></ac:image>")).1.trans
    (by decide)

/-- C8. End-to-end scenario at the output root out, given without a trailing
slash: for the dump of the two Home pages (version texts 3 and 5), their bodies
and the attachment A2 titled logo.png, in either order of the two pages,
whatever the bodies, the export root and the converter, the run writes one
document, computed from the body B2 alone, and writes it at outHome.md, a file
beside the output root and not the file Home.md in it, while the directory it
makes is out/Home and the copy of A2 goes to out/Home/logo.png; at the body B2
that embeds logo.png once these are the three operations of the run. -/
theorem end_to_end_document_beside_root (exportDir : Bytes) (html2markdown : Bytes → Bytes)
    (b1 b2 : Bytes) :
    migrate exportDir (utf8 "out") html2markdown (homeDump b1 b2) =
      some (homeJobs exportDir (utf8 "out") b2 ++
        [Effect.WriteFile (utf8 "outHome.md")
          (stripTags (html2markdown (stripAttrs (homeBody b2))))]) ∧
    migrate exportDir (utf8 "out") html2markdown (homeDumpSwapped b1 b2) =
      migrate exportDir (utf8 "out") html2markdown (homeDump b1 b2) ∧
    utf8 "outHome.md" ≠ utf8 "out/Home.md" ∧
    migrate (utf8 "export/") (utf8 "out") id
        (homeDump (utf8 "<p>old</p>")
          (utf8 "<ac:image><ri:attachment ri:filename=\"logo.png\" /></ac:image>")) =
      some [Effect.Mkdir (utf8 "out/Home"),
        Effect.Copy (utf8 "export/attachments/P2/A2/1") (utf8 "out/Home/logo.png"),
        Effect.WriteFile (utf8 "outHome.md") (utf8 "<img src=\"/logo.png\" alt=\"logo.png\">")] :=
  ⟨(home_migrate exportDir (utf8 "out") html2markdown b1 b2).1,
    (home_migrate exportDir (utf8 "out") html2markdown b1 b2).2.1,
    by decide, by decide⟩

/-! ## The slug -/

theorem replaceGo_hit (p q : Nat) (new rest : Bytes) :
    replaceGo [p, q] new 0 (p :: q :: rest) = new ++ replaceGo [p, q] new 0 rest := by
  simp [replaceGo, List.isPrefixOf]

theorem replaceGo_miss (p q b : Nat) (new rest : Bytes)
    (h : ¬ (b = p ∧ rest.head? = some q)) :
    replaceGo [p, q] new 0 (b :: rest) = b :: replaceGo [p, q] new 0 rest := by
  rw [replaceGo]
  have : [p, q].isPrefixOf (b :: rest) = false := by
    cases rest with
    | nil => simp [List.isPrefixOf]
    | cons c tl =>
      simp [List.isPrefixOf]
      intro e1 e2
      exact h ⟨e1.symm, by simp [e2]⟩
  simp [this]

theorem replaceGo_plainHead (x y : Nat) (s : Bytes) (hy : y ≠ 164 ∧ y ≠ 182 ∧ y ≠ 188)
    (hs : plainHead s) : plainHead (replaceGo [195, x] [y, 101] 0 s) := by
  cases s with
  | nil => intro h hh; simp [replaceGo] at hh
  | cons b rest =>
    by_cases hm : b = 195 ∧ rest.head? = some x
    · obtain ⟨rfl, hx⟩ := hm
      cases rest with
      | nil => simp at hx
      | cons c tl =>
        simp at hx
        subst hx
        rw [replaceGo_hit]
        intro h hh
        simp at hh
        subst hh
        exact hy
    · rw [replaceGo_miss 195 x b _ rest hm]
      intro h hh
      simp at hh
      subst hh
      exact hs b (by simp)

theorem replaceGo_lead (x : Nat) (new s : Bytes) (hx : x = 164 ∨ x = 182 ∨ x = 188)
    (hs : plainHead s) :
    replaceGo [195, x] new 0 (195 :: s) = 195 :: replaceGo [195, x] new 0 s := by
  apply replaceGo_miss
  rintro ⟨_, hh⟩
  have := hs x hh
  omega

theorem replaceGo_other (x b : Nat) (new s : Bytes) (hb : b ≠ 195) :
    replaceGo [195, x] new 0 (b :: s) = b :: replaceGo [195, x] new 0 s := by
  apply replaceGo_miss
  rintro ⟨e, _⟩
  exact hb e


theorem toAscii_eq (s : Bytes) :
    toAscii s =
      replaceGo [195, 188] [117, 101] 0
        (replaceGo [195, 182] [111, 101] 0 (replaceGo [195, 164] [97, 101] 0 s)) := rfl

theorem toAscii_nil : toAscii [] = [] := rfl

theorem toAscii_other (b : Nat) (s : Bytes) (hb : b ≠ 195) :
    toAscii (b :: s) = b :: toAscii s := by
  simp only [toAscii_eq, replaceGo_other _ b _ _ hb]

theorem toAscii_lead (s : Bytes) (hs : plainHead s) :
    toAscii (195 :: s) = 195 :: toAscii s := by
  have h1 := replaceGo_plainHead 164 97 s (by omega) hs
  have h2 := replaceGo_plainHead 182 111 _ (by omega) h1
  simp only [toAscii_eq]
  rw [replaceGo_lead 164 _ s (by omega) hs, replaceGo_lead 182 _ _ (by omega) h1,
    replaceGo_lead 188 _ _ (by omega) h2]

theorem toAscii_ae (s : Bytes) : toAscii (195 :: 164 :: s) = 97 :: 101 :: toAscii s := by
  simp only [toAscii_eq, replaceGo_hit, List.cons_append, List.nil_append]
  rw [replaceGo_other 182 97 _ _ (by omega), replaceGo_other 182 101 _ _ (by omega),
    replaceGo_other 188 97 _ _ (by omega), replaceGo_other 188 101 _ _ (by omega)]

theorem toAscii_oe (s : Bytes) : toAscii (195 :: 182 :: s) = 111 :: 101 :: toAscii s := by
  simp only [toAscii_eq]
  rw [replaceGo_miss 195 164 195 _ (182 :: s) (by simp),
    replaceGo_other 164 182 _ _ (by omega), replaceGo_hit]
  simp only [List.cons_append, List.nil_append]
  rw [replaceGo_other 188 111 _ _ (by omega), replaceGo_other 188 101 _ _ (by omega)]

theorem toAscii_ue (s : Bytes) : toAscii (195 :: 188 :: s) = 117 :: 101 :: toAscii s := by
  simp only [toAscii_eq]
  rw [replaceGo_miss 195 164 195 _ (188 :: s) (by simp),
    replaceGo_other 164 188 _ _ (by omega),
    replaceGo_miss 195 182 195 _ (188 :: _) (by simp),
    replaceGo_other 182 188 _ _ (by omega), replaceGo_hit]
  rfl

theorem utf8_ae : utf8 "ä" = [195, 164] ∧ utf8 "ö" = [195, 182] ∧ utf8 "ü" = [195, 188] ∧
    utf8 "ae" = [97, 101] ∧ utf8 "oe" = [111, 101] ∧ utf8 "ue" = [117, 101] := by
  decide

theorem toAscii_transliterate_aux (n : Nat) :
    ∀ s : Bytes, s.length ≤ n → toAscii s = transliterate s := by
  induction n with
  | zero =>
    intro s hs
    have : s = [] := List.eq_nil_of_length_eq_zero (by omega)
    subst this
    rfl
  | succ n ih =>
    intro s hs
    match s, hs with
    | [], _ => rfl
    | [b], _ =>
      by_cases hb : b = 195
      · subst hb
        rw [toAscii_lead [] (fun h hh => by simp at hh)]
        rfl
      · rw [toAscii_other b [] hb]
        rfl
    | b :: c :: rest, hs =>
      have hrest : rest.length ≤ n := by simp at hs; omega
      have hcrest : (c :: rest).length ≤ n := by simp at hs ⊢; omega
      obtain ⟨ha, ho, hu, hae, hoe, hue⟩ := utf8_ae
      rw [transliterate, ha, ho, hu, hae, hoe, hue]
      by_cases h1 : b = 195 ∧ c = 164
      · obtain ⟨rfl, rfl⟩ := h1
        simp [toAscii_ae, ih rest hrest]
      · by_cases h2 : b = 195 ∧ c = 182
        · obtain ⟨rfl, rfl⟩ := h2
          simp [toAscii_oe, ih rest hrest]
        · by_cases h3 : b = 195 ∧ c = 188
          · obtain ⟨rfl, rfl⟩ := h3
            simp [toAscii_ue, ih rest hrest]
          · have e1 : ¬ [b, c] = [195, 164] := by simpa using h1
            have e2 : ¬ [b, c] = [195, 182] := by simpa using h2
            have e3 : ¬ [b, c] = [195, 188] := by simpa using h3
            rw [if_neg e1, if_neg e2, if_neg e3, ← ih (c :: rest) hcrest]
            by_cases hb : b = 195
            · subst hb
              apply toAscii_lead
              intro h hh
              simp at hh
              subst hh
              simp at h1 h2 h3
              omega
            · exact toAscii_other b _ hb

theorem toAscii_transliterate (s : Bytes) : toAscii s = transliterate s :=
  toAscii_transliterate_aux s.length s (Nat.le_refl _)


theorem drop_takeWhile_length (p : Nat → Bool) (l : Bytes) :
    l.drop (l.takeWhile p).length = l.dropWhile p := by
  induction l with
  | nil => rfl
  | cons b rest ih =>
    by_cases hb : p b = true
    · simp [List.takeWhile, List.dropWhile, hb, ih]
    · simp [List.takeWhile, List.dropWhile, hb]

theorem slugMatch_alnum (b : Nat) (rest : Bytes) (hb : isAlnum b = true) :
    slugMatch (b :: rest) = none := by
  simp [slugMatch, List.takeWhile, hb]

theorem slugMatch_other (b : Nat) (rest : Bytes) (hb : isAlnum b = false) :
    slugMatch (b :: rest) =
      some ((rest.takeWhile (fun b => !isAlnum b)).length + 1) := by
  simp [slugMatch, List.takeWhile, hb]

theorem slugScan_dropWhile (rest : Bytes) :
    slugScan true (rest.dropWhile (fun b => !isAlnum b)) = slugScan true rest := by
  induction rest with
  | nil => rfl
  | cons b tl ih =>
    by_cases hb : isAlnum b = true
    · simp [List.dropWhile, hb]
    · simp [List.dropWhile, hb, slugScan, ih]

theorem isAlnum_facts (b : Nat) (hb : isAlnum b = true) :
    b ≠ 32 ∧ toTitle b ≠ 32 ∧ isSeparator b = false ∧ isAlnum (toTitle b) = true := by
  simp only [isAlnum, isUpper, isDigit, isLower, Bool.or_eq_true, Bool.and_eq_true,
    decide_eq_true_eq] at hb
  refine ⟨by omega, ?_, ?_, ?_⟩
  · unfold toTitle isLower
    split <;> rename_i h <;> simp at h <;> omega
  · unfold isSeparator isDigit isLower isUpper
    by_cases h1 : 48 ≤ b ∧ b ≤ 57
    · simp [h1]
    · by_cases h2 : 97 ≤ b ∧ b ≤ 122
      · simp [h2]
      · have h3 : 65 ≤ b ∧ b ≤ 90 := by omega
        simp [h3]
  · unfold toTitle isLower
    split <;> rename_i h <;>
      simp [isAlnum, isUpper, isDigit, isLower] at h ⊢ <;> omega

theorem replaceSpace_cons (c : Nat) (rest : Bytes) :
    replaceGo [32] [] 0 (c :: rest) =
      if c = 32 then replaceGo [32] [] 0 rest else c :: replaceGo [32] [] 0 rest := by
  by_cases h : c = 32
  · subst h
    simp [replaceGo, List.isPrefixOf]
  · have : ¬ 32 = c := fun e => h e.symm
    simp [replaceGo, List.isPrefixOf, h, this]

theorem slugify_passes (n : Nat) :
    ∀ (u : Bytes) (prev : Nat), u.length ≤ n →
      replaceGo [32] [] 0 (titleGo prev (replaceAllGo slugMatch [32] 0 u)) =
        slugScan (isSeparator prev) u := by
  induction n with
  | zero =>
    intro u prev hu
    have : u = [] := List.eq_nil_of_length_eq_zero (by omega)
    subst this
    rfl
  | succ n ih =>
    intro u prev hu
    cases u with
    | nil => rfl
    | cons b rest =>
      have hrest : rest.length ≤ n := by simp at hu; omega
      by_cases hb : isAlnum b = true
      · obtain ⟨h32, ht32, hsep, _⟩ := isAlnum_facts b hb
        rw [replaceAllGo, slugMatch_alnum b rest hb]
        simp only [titleGo, slugScan, hb, if_true]
        by_cases hp : isSeparator prev = true
        · simp only [hp, if_true]
          rw [replaceSpace_cons, if_neg ht32, ih rest b hrest, hsep]
        · have hp2 : isSeparator prev = false := by simpa using hp
          simp only [hp2, Bool.false_eq_true, if_false]
          rw [replaceSpace_cons, if_neg h32, ih rest b hrest, hsep]
      · have hb2 : isAlnum b = false := by simpa using hb
        rw [replaceAllGo, slugMatch_other b rest hb2]
        simp only [Nat.add_sub_cancel, List.singleton_append]
        rw [replaceAllGo_skip, drop_takeWhile_length]
        have hsep32 : isSeparator 32 = true := by decide
        have hlen : (rest.dropWhile (fun b => !isAlnum b)).length ≤ n :=
          Nat.le_trans (List.dropWhile_suffix _).length_le hrest
        have ht : ∀ X : Bytes, titleGo prev (32 :: X) = 32 :: titleGo 32 X := by
          intro X
          simp only [titleGo]
          split
          · rfl
          · rfl
        rw [ht, replaceSpace_cons, if_pos rfl, ih _ 32 hlen, hsep32, slugScan_dropWhile]
        simp [slugScan, hb2]

/-- The string handed to `strings.Title` by `slugify` holds ASCII letters, digits
and spaces only. -/
theorem slugMatch_replace_ascii (s : Bytes) :
    ∀ c ∈ regexReplaceAll slugMatch (utf8 " ") s, isAlnum c = true ∨ c = 32 := by
  have key : ∀ n : Nat, ∀ u : Bytes, u.length ≤ n →
      ∀ c ∈ replaceAllGo slugMatch [32] 0 u, isAlnum c = true ∨ c = 32 := by
    intro n
    induction n with
    | zero =>
      intro u hu c hc
      have : u = [] := List.eq_nil_of_length_eq_zero (by omega)
      subst this
      simp [replaceAllGo] at hc
    | succ n ih =>
      intro u hu c hc
      cases u with
      | nil => simp [replaceAllGo] at hc
      | cons b rest =>
        have hrest : rest.length ≤ n := by simp at hu; omega
        by_cases hb : isAlnum b = true
        · rw [replaceAllGo, slugMatch_alnum b rest hb] at hc
          rcases List.mem_cons.mp hc with e | e
          · subst e; exact Or.inl hb
          · exact ih rest hrest c e
        · have hb2 : isAlnum b = false := by simpa using hb
          rw [replaceAllGo, slugMatch_other b rest hb2] at hc
          simp only [Nat.add_sub_cancel, List.singleton_append] at hc
          rw [replaceAllGo_skip, drop_takeWhile_length] at hc
          rcases List.mem_cons.mp hc with e | e
          · exact Or.inr e
          · exact ih _ (Nat.le_trans (List.dropWhile_suffix _).length_le hrest) c e
  exact key s.length s (Nat.le_refl _)

theorem slugify_eq_scan (s : Bytes) : slugify s = slugScan true (toAscii s) := by
  have h := slugify_passes (toAscii s).length (toAscii s) 32 (Nat.le_refl _)
  have hsep32 : isSeparator 32 = true := by decide
  rw [hsep32] at h
  exact h


theorem upperCase_eq_toTitle (b : Nat) : upperCase b = toTitle b := by
  unfold upperCase toTitle isLower
  by_cases h : 97 ≤ b ∧ b ≤ 122
  · simp [h]
  · have : ¬ (97 ≤ b ∧ b ≤ 122) := h
    simp only [h, if_false]
    split
    · rename_i h2
      simp at h2
      exact absurd h2 h
    · rfl

theorem capitalized_words_cons (w : Bytes) (ws : List Bytes) :
    (((w :: ws).filter (fun w => !w.isEmpty)).map capitalize).flatten =
      capitalize w ++ ((ws.filter (fun w => !w.isEmpty)).map capitalize).flatten := by
  cases w with
  | nil => simp [capitalize]
  | cons b tl => simp [List.filter]

theorem slugScan_split (u : Bytes) :
    ∃ w ws, u.splitOnP (fun b => !isAlnum b) = w :: ws ∧
      slugScan false u = w ++ ((ws.filter (fun w => !w.isEmpty)).map capitalize).flatten ∧
      slugScan true u =
        capitalize w ++ ((ws.filter (fun w => !w.isEmpty)).map capitalize).flatten := by
  induction u with
  | nil => exact ⟨[], [], by simp, rfl, rfl⟩
  | cons x xs ih =>
    obtain ⟨w, ws, hsplit, hf, ht⟩ := ih
    by_cases hx : isAlnum x = true
    · refine ⟨x :: w, ws, ?_, ?_, ?_⟩
      · rw [List.splitOnP_cons, hsplit]
        simp [hx]
      · simp [slugScan, hx, hf]
      · simp [slugScan, hx, hf, capitalize, upperCase_eq_toTitle]
    · have hx2 : isAlnum x = false := by simpa using hx
      refine ⟨[], w :: ws, ?_, ?_, ?_⟩
      · rw [List.splitOnP_cons, hsplit]
        simp [hx2]
      · rw [capitalized_words_cons]
        simp [slugScan, hx2, ht]
      · rw [capitalized_words_cons]
        simp [slugScan, hx2, ht, capitalize]

theorem slugifySpec_eq_scan (s : Bytes) : slugifySpec s = slugScan true (transliterate s) := by
  obtain ⟨w, ws, hsplit, _, ht⟩ := slugScan_split (transliterate s)
  unfold slugifySpec alnumWords
  rw [hsplit, capitalized_words_cons, ht]

theorem toAscii_umlaut_aux (n : Nat) :
    ∀ a b : Bytes, a.length ≤ n →
      toAscii (a ++ 195 :: 188 :: b) = toAscii (a ++ 117 :: 101 :: b) := by
  induction n with
  | zero =>
    intro a b ha
    have : a = [] := List.eq_nil_of_length_eq_zero (by omega)
    subst this
    simp only [List.nil_append]
    rw [toAscii_ue, toAscii_other 117 _ (by omega), toAscii_other 101 _ (by omega)]
  | succ n ih =>
    intro a b ha
    match a, ha with
    | [], _ =>
      simp only [List.nil_append]
      rw [toAscii_ue, toAscii_other 117 _ (by omega), toAscii_other 101 _ (by omega)]
    | [x], _ =>
      have h0 := ih [] b (by simp)
      simp only [List.nil_append] at h0
      by_cases hx : x = 195
      · subst hx
        simp only [List.singleton_append]
        rw [toAscii_lead (195 :: 188 :: b) (fun h hh => by simp at hh; omega),
          toAscii_lead (117 :: 101 :: b) (fun h hh => by simp at hh; omega), h0]
      · simp only [List.singleton_append]
        rw [toAscii_other x _ hx, toAscii_other x _ hx, h0]
    | x :: c :: rest, ha =>
      have hrest : rest.length ≤ n := by simp at ha; omega
      have hcrest : (c :: rest).length ≤ n := by simp at ha ⊢; omega
      have h1 := ih rest b hrest
      have h2 := ih (c :: rest) b hcrest
      simp only [List.cons_append] at h2 ⊢
      by_cases hx : x = 195
      · subst hx
        by_cases hc1 : c = 164
        · subst hc1; rw [toAscii_ae, toAscii_ae, h1]
        · by_cases hc2 : c = 182
          · subst hc2; rw [toAscii_oe, toAscii_oe, h1]
          · by_cases hc3 : c = 188
            · subst hc3; rw [toAscii_ue, toAscii_ue, h1]
            · rw [toAscii_lead (c :: (rest ++ 195 :: 188 :: b))
                  (fun h hh => by simp at hh; omega),
                toAscii_lead (c :: (rest ++ 117 :: 101 :: b))
                  (fun h hh => by simp at hh; omega), h2]
      · rw [toAscii_other x _ hx, toAscii_other x _ hx, h2]

theorem slugScan_alnum (start : Bool) (u : Bytes) :
    ∀ c ∈ slugScan start u, isAlnum c = true := by
  induction u generalizing start with
  | nil => intro c hc; simp [slugScan] at hc
  | cons b rest ih =>
    intro c hc
    by_cases hb : isAlnum b = true
    · simp only [slugScan, hb, if_true] at hc
      rcases List.mem_cons.mp hc with e | e
      · subst e
        cases start
        · simpa using hb
        · simpa using (isAlnum_facts b hb).2.2.2
      · exact ih false c e
    · have hb2 : isAlnum b = false := by simpa using hb
      simp only [slugScan, hb2] at hc
      exact ih true c (by simpa using hc)

/-- C9. Slugification algorithm: the slug is the concatenation of the words of
the transliterated title, each with its first character upper-cased, the words
being the maximal runs of letters and digits; transliteration comes before the
splitting into words, so that a title with ü and the title with ue in its place
have the same slug. -/
theorem slugify_refines_spec :
    (∀ s : Bytes, slugify s = slugifySpec s) ∧
    (∀ a b : Bytes, slugify (a ++ utf8 "ü" ++ b) = slugify (a ++ utf8 "ue" ++ b)) ∧
    slugify (utf8 "für alle") = utf8 "FuerAlle" := by
  refine ⟨?_, ?_, by decide⟩
  · intro s
    rw [slugify_eq_scan, slugifySpec_eq_scan, toAscii_transliterate]
  · intro a b
    obtain ⟨_, _, hu, _, _, hue⟩ := utf8_ae
    rw [slugify_eq_scan, slugify_eq_scan, hu, hue]
    simp only [List.append_assoc, List.cons_append, List.nil_append]
    rw [toAscii_umlaut_aux a.length a b (Nat.le_refl _)]

/-- C10. Slug alphabet: every byte of a slug is an ASCII letter or digit; it is
below 0x80 and is no path separator, dot or space. -/
theorem slugify_alphabet (s : Bytes) :
    ∀ c ∈ slugify s,
      ((65 ≤ c ∧ c ≤ 90) ∨ (48 ≤ c ∧ c ≤ 57) ∨ (97 ≤ c ∧ c ≤ 122)) ∧
      c < 128 ∧ c ≠ 47 ∧ c ≠ 92 ∧ c ≠ 46 ∧ c ≠ 32 := by
  intro c hc
  rw [slugify_eq_scan] at hc
  have h := slugScan_alnum true (toAscii s) c hc
  simp only [isAlnum, isUpper, isDigit, isLower, Bool.or_eq_true, Bool.and_eq_true,
    decide_eq_true_eq] at h
  omega

/-- C10, at a title with a letter outside the table, a path separator, a dot and
spaces: the slug is FuerAlleTxt and its first byte, F, is a letter. -/
theorem slugify_alphabet_witness :
    slugify (utf8 "é/für  alle.txt") = utf8 "FuerAlleTxt" ∧
    70 ∈ slugify (utf8 "é/für  alle.txt") ∧
    (((65 ≤ 70 ∧ 70 ≤ 90) ∨ (48 ≤ 70 ∧ 70 ≤ 57) ∨ (97 ≤ 70 ∧ 70 ≤ 122)) ∧
      70 < 128 ∧ 70 ≠ 47 ∧ 70 ≠ 92 ∧ 70 ≠ 46 ∧ 70 ≠ 32) :=
  ⟨by decide, by decide, slugify_alphabet (utf8 "é/für  alle.txt") 70 (by decide)⟩

/-! ## The decoding of revisions -/

theorem lor_shift (x b i : Nat) (hx : x < 2 ^ (7 * i)) :
    x ||| (b <<< (7 * i)) = x + 2 ^ (7 * i) * b := by
  rw [Nat.shiftLeft_eq, Nat.or_comm, Nat.mul_comm b, ← Nat.mul_add_lt_is_or hx, Nat.add_comm]

theorem uvarintLoop_wellformed (conts : Bytes) :
    ∀ (i x last : Nat) (rest : Bytes), (∀ b ∈ conts, 0x80 ≤ b) → last < 0x80 →
      x < 2 ^ (7 * i) →
      (i + conts.length < 9 ∨ (i + conts.length = 9 ∧ last ≤ 1)) →
      (uvarintLoop i x (7 * i) (conts ++ last :: rest)).1 =
        x + 2 ^ (7 * i) * leb128 (conts ++ [last]) := by
  induction conts with
  | nil =>
    intro i x last rest _ hlast hx hlen
    simp only [List.nil_append, uvarintLoop, leb128]
    have hi : ¬ i = 10 := by simp at hlen; omega
    have h9 : ¬ (i = 9 ∧ last > 1) := by simp at hlen; omega
    rw [if_neg hi, if_pos hlast, if_neg h9, lor_shift x last i hx]
    simp only [Nat.mul_zero, Nat.add_zero, Nat.mod_eq_of_lt hlast]
    apply Nat.mod_eq_of_lt
    simp at hlen
    rcases hlen with h | ⟨h, hl⟩
    · have h1 : 2 ^ (7 * i) * last < 2 ^ (7 * i) * 128 :=
        (Nat.mul_lt_mul_left (Nat.two_pow_pos _)).mpr hlast
      have h2 : 2 ^ (7 * i) * 128 = 2 ^ (7 * i + 7) := by rw [Nat.pow_add]
      have h3 : 2 ^ (7 * i + 7) ≤ 2 ^ 63 := Nat.pow_le_pow_right (by omega) (by omega)
      have h4 : (2:Nat) ^ 64 = 2 ^ 63 + 2 ^ 63 := by norm_num
      have h5 : 2 ^ (7 * i) ≤ 2 ^ (7 * i + 7) := Nat.pow_le_pow_right (by omega) (by omega)
      omega
    · subst h
      have : last = 0 ∨ last = 1 := by omega
      rcases this with rfl | rfl <;> norm_num at hx ⊢ <;> omega
  | cons c cs ih =>
    intro i x last rest hc hlast hx hlen
    have hc0 : 0x80 ≤ c := hc c (List.mem_cons_self _ _)
    have hcs : ∀ b ∈ cs, 0x80 ≤ b := fun b hb => hc b (List.mem_cons_of_mem _ hb)
    simp only [List.length_cons] at hlen
    have hi : ¬ i = 10 := by omega
    have hnot : ¬ c < 0x80 := by omega
    simp only [List.cons_append, uvarintLoop]
    rw [if_neg hi, if_neg hnot]
    have hand : c &&& 0x7f = c % 128 := Nat.and_pow_two_sub_one_eq_mod c 7
    rw [hand, lor_shift x (c % 128) i hx]
    have hlt : x + 2 ^ (7 * i) * (c % 128) < 2 ^ (7 * (i + 1)) := by
      have h1 : c % 128 < 128 := Nat.mod_lt _ (by omega)
      have h2 : 2 ^ (7 * (i + 1)) = 2 ^ (7 * i) * 128 := by
        rw [Nat.mul_add, Nat.pow_add]
      rw [h2]
      have h3 : 2 ^ (7 * i) * (c % 128) + 2 ^ (7 * i) ≤ 2 ^ (7 * i) * 128 := by
        have : 2 ^ (7 * i) * (c % 128 + 1) ≤ 2 ^ (7 * i) * 128 :=
          Nat.mul_le_mul_left _ (by omega)
        rw [Nat.mul_add, Nat.mul_one] at this
        exact this
      omega
    have hpow : 2 ^ (7 * (i + 1)) ≤ 2 ^ 64 := Nat.pow_le_pow_right (by omega) (by omega)
    rw [Nat.mod_eq_of_lt (by omega)]
    have h7 : 7 * i + 7 = 7 * (i + 1) := by omega
    rw [h7]
    show (uvarintLoop (i + 1) (x + 2 ^ (7 * i) * (c % 128)) (7 * (i + 1))
      (cs ++ last :: rest)).1 = _
    rw [ih (i + 1) _ last rest hcs hlast hlt (by omega)]
    simp only [leb128, List.cons_append]
    have h2 : 2 ^ (7 * (i + 1)) = 2 ^ (7 * i) * 128 := by
      rw [Nat.mul_add, Nat.pow_add]
    rw [h2, Nat.mul_add, Nat.mul_assoc, Nat.add_assoc]

theorem uvarintLoop_truncated (buf : Bytes) :
    ∀ (i x s : Nat), (∀ b ∈ buf, 0x80 ≤ b) → (uvarintLoop i x s buf).1 = 0 := by
  induction buf with
  | nil => intro i x s _; rfl
  | cons b rest ih =>
    intro i x s h
    have hb : ¬ b < 0x80 := by
      have := h b (List.mem_cons_self _ _)
      omega
    simp only [uvarintLoop]
    by_cases hi : i = 10
    · rw [if_pos hi]
    · rw [if_neg hi, if_neg hb]
      exact ih _ _ _ (fun c hc => h c (List.mem_cons_of_mem _ hc))

theorem uvarintLoop_ten (buf : Bytes) (x s : Nat) : (uvarintLoop 10 x s buf).1 = 0 := by
  cases buf with
  | nil => rfl
  | cons b rest => simp [uvarintLoop]

theorem uvarintLoop_overflow (conts : Bytes) :
    ∀ (i x s last : Nat) (rest : Bytes), (∀ b ∈ conts, 0x80 ≤ b) → i ≤ 10 →
      (10 ≤ i + conts.length ∨ (i + conts.length = 9 ∧ 1 < last)) →
      (uvarintLoop i x s (conts ++ last :: rest)).1 = 0 := by
  induction conts with
  | nil =>
    intro i x s last rest _ hi hlen
    simp only [List.nil_append, uvarintLoop]
    by_cases h10 : i = 10
    · rw [if_pos h10]
    · rw [if_neg h10]
      simp only [List.length_nil, Nat.add_zero] at hlen
      have h9 : i = 9 ∧ 1 < last := by omega
      by_cases hl : last < 0x80
      · rw [if_pos hl, if_pos ⟨h9.1, h9.2⟩]
      · rw [if_neg hl, h9.1]
        exact uvarintLoop_ten _ _ _
  | cons c cs ih =>
    intro i x s last rest hc hi hlen
    have hc0 : ¬ c < 0x80 := by
      have := hc c (List.mem_cons_self _ _)
      omega
    simp only [List.cons_append, uvarintLoop]
    by_cases h10 : i = 10
    · rw [if_pos h10]
    · rw [if_neg h10, if_neg hc0]
      simp only [List.length_cons] at hlen
      exact ih (i + 1) _ _ last rest (fun b hb => hc b (List.mem_cons_of_mem _ hb))
        (by omega) (by omega)

theorem attachment_version_fold (props : List Property) :
    ∀ (a : ConfluenceAttachment) (buf : Bytes), a.Version = (Uvarint buf).1 →
      (props.foldl attPropStep a).Version =
        (Uvarint (props.foldl
          (fun buf prop => if prop.Name = utf8 "version" then prop.Value else buf) buf)).1 := by
  induction props with
  | nil => intro a buf h; exact h
  | cons p ps ih =>
    intro a buf h
    simp only [List.foldl_cons]
    apply ih
    unfold attPropStep
    by_cases hv : p.Name = utf8 "version"
    · simp only [if_pos hv]
    · by_cases ht : p.Name = utf8 "title"
      · simp only [if_neg hv, if_pos ht, h]
      · simp only [if_neg hv, if_neg ht, h]

theorem page_version_fold (props : List Property) :
    ∀ (p : ConfluencePage) (buf : Bytes), p.Version = (Uvarint buf).1 →
      (props.foldl pagePropStep p).Version =
        (Uvarint (props.foldl
          (fun buf prop => if prop.Name = utf8 "version" then prop.Value else buf) buf)).1 := by
  induction props with
  | nil => intro a buf h; exact h
  | cons q qs ih =>
    intro p buf h
    simp only [List.foldl_cons]
    apply ih
    unfold pagePropStep
    by_cases hv : q.Name = utf8 "version"
    · by_cases ht : q.Name = utf8 "title"
      · simp only [if_pos hv, if_pos ht]
      · simp only [if_pos hv, if_neg ht]
    · by_cases ht : q.Name = utf8 "title"
      · simp only [if_neg hv, if_pos ht, h]
      · simp only [if_neg hv, if_neg ht, h]

theorem pageCollLoop_version (colls : List Collection) :
    ∀ (p q : ConfluencePage), pageCollLoop p colls = some q → q.Version = p.Version := by
  induction colls with
  | nil => intro p q h; simp [pageCollLoop] at h; rw [← h]
  | cons c cs ih =>
    intro p q h
    cases hstep : pageCollStep p c with
    | none => simp [pageCollLoop, hstep] at h
    | some p1 =>
      simp only [pageCollLoop, hstep] at h
      rw [ih p1 q h]
      unfold pageCollStep at hstep
      by_cases hn : c.Name = utf8 "bodyContents"
      · rw [if_pos hn] at hstep
        cases he : c.Elements with
        | nil => simp [he] at hstep
        | cons e es =>
          simp only [he] at hstep
          split at hstep <;> (cases hstep; rfl)
      · rw [if_neg hn] at hstep
        dsimp only at hstep
        split at hstep <;> (cases hstep; rfl)

theorem attachmentOf_version (obj : Object) :
    (attachmentOf obj).Version = (Uvarint (versionBuffer obj)).1 :=
  attachment_version_fold obj.Properties _ [] rfl

theorem pageOf_version (obj : Object) (p : ConfluencePage) (h : pageOf obj = some p) :
    p.Version = (Uvarint (versionBuffer obj)).1 := by
  rw [pageCollLoop_version obj.Collections _ p h]
  exact page_version_fold obj.Properties _ [] rfl

/-- C11. Revision decoding never fails: the decoded value of an empty buffer, of
a truncated buffer (every byte has the continuation bit) and of a buffer that
overflows 64 bits (ten continuation bytes or more, or nine followed by a byte
above 1) is 0; the decoded value of a well-formed buffer is its base-128
little-endian value, whatever follows it.  The version of an Attachment or Page
record is the decoded value of the buffer of its version property, and the index
of a dump is built whatever the version buffers are, as soon as no Page object
has an empty bodyContents collection. -/
theorem revision_decoding_total :
    (Uvarint []).1 = 0 ∧
    (∀ buf : Bytes, (∀ b ∈ buf, 0x80 ≤ b) → (Uvarint buf).1 = 0) ∧
    (∀ (conts : Bytes) (last : Nat) (rest : Bytes), (∀ b ∈ conts, 0x80 ≤ b) →
      (10 ≤ conts.length ∨ (conts.length = 9 ∧ 1 < last)) →
      (Uvarint (conts ++ last :: rest)).1 = 0) ∧
    (∀ (conts : Bytes) (last : Nat) (rest : Bytes), (∀ b ∈ conts, 0x80 ≤ b) →
      last < 0x80 → (conts.length < 9 ∨ (conts.length = 9 ∧ last ≤ 1)) →
      (Uvarint (conts ++ last :: rest)).1 = leb128 (conts ++ [last])) ∧
    (∀ obj : Object, (attachmentOf obj).Version = (Uvarint (versionBuffer obj)).1) ∧
    (∀ (obj : Object) (p : ConfluencePage), pageOf obj = some p →
      p.Version = (Uvarint (versionBuffer obj)).1) ∧
    (∀ objs : List Object, bodiesPresent objs → ∃ idx, buildIndex objs = some idx) := by
  refine ⟨rfl, ?_, ?_, ?_, attachmentOf_version, pageOf_version, ?_⟩
  · intro buf h
    exact uvarintLoop_truncated buf 0 0 0 h
  · intro conts last rest h hlen
    exact uvarintLoop_overflow conts 0 0 0 last rest h (by omega) (by omega)
  · intro conts last rest h hlast hlen
    have := uvarintLoop_wellformed conts 0 0 last rest h hlast (by norm_num) (by omega)
    simp only [Nat.mul_zero, Nat.pow_zero, Nat.one_mul, Nat.zero_add] at this
    exact this
  · intro objs h
    obtain ⟨idx, hb, _, _⟩ := indexLoop_entries objs Index.empty [] [] h
    exact ⟨idx, hb⟩

/-- C11, at the buffers AC 02 (the value 300), 80 FF (truncated) and ten bytes FF
followed by 01 (overflow), and at an Attachment object with a truncated version
buffer. -/
theorem revision_decoding_total_witness :
    (Uvarint [0xAC, 0x02]).1 = 300 ∧
    (Uvarint [0x80, 0xFF]).1 = 0 ∧
    (Uvarint [0xFF, 0xFF, 0xFF, 0xFF, 0xFF, 0xFF, 0xFF, 0xFF, 0xFF, 0xFF, 0x01]).1 = 0 ∧
    (attachmentOf (attachmentObject (utf8 "A") (utf8 "a.png") [0x80, 0xFF])).Version = 0 ∧
    ∃ idx, buildIndex [attachmentObject (utf8 "A") (utf8 "a.png") [0x80, 0xFF]] = some idx :=
  ⟨(revision_decoding_total.2.2.2.1 [0xAC] 0x02 [] (by decide) (by decide) (by decide)).trans
      (by decide),
    revision_decoding_total.2.1 [0x80, 0xFF] (by decide),
    revision_decoding_total.2.2.1 [0xFF, 0xFF, 0xFF, 0xFF, 0xFF, 0xFF, 0xFF, 0xFF, 0xFF, 0xFF]
      0x01 [] (by decide) (by decide),
    (revision_decoding_total.2.2.2.2.1
      (attachmentObject (utf8 "A") (utf8 "a.png") [0x80, 0xFF])).trans (by decide),
    revision_decoding_total.2.2.2.2.2.2
      [attachmentObject (utf8 "A") (utf8 "a.png") [0x80, 0xFF]] (by decide)⟩

/-- C15. Decoding of textual versions: a version buffer whose first byte is below
0x80 decodes to that byte, the rest being ignored, and this is the version of
the Attachment or Page record.  The text 9 decodes to 57 and the text 10 to 49,
so in the index a record with the version text 10 does not replace the one with
the version text 9 that precedes it. -/
theorem textual_version_decoding (b : Nat) (rest : Bytes) (hb : b < 0x80) :
    Uvarint (b :: rest) = (b, 1) ∧
    (∀ obj : Object, versionBuffer obj = b :: rest →
      (attachmentOf obj).Version = b ∧
      ∀ p : ConfluencePage, pageOf obj = some p → p.Version = b) ∧
    (Uvarint (utf8 "9")).1 = 57 ∧ (Uvarint (utf8 "10")).1 = 49 ∧
    (buildIndex [attachmentObject (utf8 "A") (utf8 "old.png") (utf8 "9"),
        attachmentObject (utf8 "A") (utf8 "new.png") (utf8 "10")]).map
      (fun idx => idx.confluenceAttachments.get (utf8 "A")) =
        some (some ⟨utf8 "A", utf8 "old.png", 57⟩) ∧
    (buildIndex [pageObject (utf8 "P1") (utf8 "Home") (utf8 "9") [utf8 "B1"] [],
        pageObject (utf8 "P2") (utf8 "Home") (utf8 "10") [utf8 "B2"] []]).map
      (fun idx => idx.confluencePages.get (utf8 "Home")) =
        some (some ⟨utf8 "P1", utf8 "Home", utf8 "B1", 57, []⟩) := by
  have h1 : Uvarint (b :: rest) = (b, 1) := by
    simp [Uvarint, uvarintLoop, hb]
    omega
  refine ⟨h1, ?_, by decide, by decide, by decide, by decide⟩
  intro obj hbuf
  refine ⟨?_, ?_⟩
  · rw [attachmentOf_version, hbuf, h1]
  · intro p hp
    rw [pageOf_version obj p hp, hbuf, h1]

/-- C15, at the version text 10. -/
theorem textual_version_decoding_witness :
    (49 < 0x80) ∧ Uvarint (utf8 "10") = (49, 1) ∧
    (attachmentOf (attachmentObject (utf8 "A") (utf8 "new.png") (utf8 "10"))).Version = 49 :=
  ⟨by decide, (textual_version_decoding 49 [48] (by decide)).1,
    ((textual_version_decoding 49 [48] (by decide)).2.1
      (attachmentObject (utf8 "A") (utf8 "new.png") (utf8 "10")) (by decide)).1⟩

/-! ## Body contents and title collisions -/

theorem indexStep_bodies (idx : Index) (obj : Object) (i : Bytes)
    (h : isPage obj = true →
      ∀ coll ∈ obj.Collections, coll.Name = utf8 "bodyContents" → coll.Elements ≠ []) :
    ∃ idx1, indexStep idx obj = some idx1 ∧
      idx1.confluenceBodyContents.get i =
        if isBodyContentWith i obj = true then some (bodyContentOf obj)
        else idx.confluenceBodyContents.get i := by
  unfold indexStep
  by_cases hp : isPage obj = true
  · obtain ⟨p, hpo⟩ := pageCollLoop_isSome obj.Collections
      (obj.Properties.foldl pagePropStep ⟨obj.Id, [], [], 0, []⟩) (h hp)
    have hpo2 : pageOf obj = some p := hpo
    by_cases hb : isBodyContent obj = true
    · by_cases hi : obj.Id = i <;>
        simp [hp, hpo2, hb, hi, isBodyContentWith, GoMap.get_set]
      all_goals (split <;> simp [GoMap.get_set, hi])
      all_goals (intro e; exact absurd e.symm hi)
    · simp [hp, hpo2, hb, isBodyContentWith]
      split <;> simp
  · by_cases hb : isBodyContent obj = true
    · by_cases hi : obj.Id = i <;>
        simp [hp, hb, hi, isBodyContentWith, GoMap.get_set]
      all_goals (split <;> simp [GoMap.get_set, hi])
      all_goals (intro e; exact absurd e.symm hi)
    · simp [hp, hb, isBodyContentWith]
      split <;> simp

theorem indexLoop_bodies (objs : List Object) (i : Bytes) :
    ∀ idx : Index, bodiesPresent objs →
      ∃ idx1, indexLoop idx objs = some idx1 ∧
        ((∀ x ∈ objs, isBodyContentWith i x = false) →
          idx1.confluenceBodyContents.get i = idx.confluenceBodyContents.get i) ∧
        (∀ before o after, objs = before ++ o :: after → isBodyContentWith i o = true →
          (∀ x ∈ after, isBodyContentWith i x = false) →
          idx1.confluenceBodyContents.get i = some (bodyContentOf o)) := by
  induction objs with
  | nil =>
    intro idx _
    refine ⟨idx, rfl, fun _ => rfl, ?_⟩
    intro before o after h
    simp at h
  | cons obj rest ih =>
    intro idx h
    obtain ⟨idx1, h1, hb1⟩ := indexStep_bodies idx obj i (h obj (List.mem_cons_self _ _))
    obtain ⟨idx2, h2, hnone, hlast⟩ := ih idx1 (fun o ho => h o (List.mem_cons_of_mem _ ho))
    refine ⟨idx2, by simp [indexLoop, h1, h2], ?_, ?_⟩
    · intro hall
      have hobj := hall obj (List.mem_cons_self _ _)
      rw [hnone (fun x hx => hall x (List.mem_cons_of_mem _ hx)), hb1]
      simp [hobj]
    · intro before o after hsplit ho hafter
      cases before with
      | nil =>
        simp only [List.nil_append, List.cons.injEq] at hsplit
        obtain ⟨rfl, rfl⟩ := hsplit
        rw [hnone hafter, hb1]
        simp [ho]
      | cons b bs =>
        simp only [List.cons_append, List.cons.injEq] at hsplit
        obtain ⟨rfl, hrest⟩ := hsplit
        exact hlast bs o after hrest ho hafter

theorem exists_last (p : Object → Bool) (l : List Object) (h : ∃ x ∈ l, p x = true) :
    ∃ before o after, l = before ++ o :: after ∧ p o = true ∧ ∀ x ∈ after, p x = false := by
  induction l with
  | nil => obtain ⟨x, hx, _⟩ := h; cases hx
  | cons a rest ih =>
    by_cases hr : ∃ x ∈ rest, p x = true
    · obtain ⟨before, o, after, hsplit, ho, hafter⟩ := ih hr
      exact ⟨a :: before, o, after, by simp [hsplit], ho, hafter⟩
    · obtain ⟨x, hx, hpx⟩ := h
      rcases List.mem_cons.mp hx with e | e
      · subst e
        refine ⟨[], x, rest, rfl, hpx, ?_⟩
        intro y hy
        cases hpy : p y with
        | false => rfl
        | true => exact absurd ⟨y, hy, hpy⟩ hr
      · exact absurd ⟨x, e, hpx⟩ hr

/-- C18. BodyContent records are not version-compared: in a dump none of whose
Page objects has an empty bodyContents collection, the index build succeeds and
the entry of an identity carried by some BodyContent object is the record of the
last BodyContent object of that identity in the dump. -/
theorem body_last_seen_wins (objs : List Object) (i : Bytes) (hwf : bodiesPresent objs)
    (hi : ∃ o ∈ objs, isBodyContentWith i o = true) :
    ∃ idx, buildIndex objs = some idx ∧
      ∃ before o after, objs = before ++ o :: after ∧ isBodyContentWith i o = true ∧
        (∀ x ∈ after, isBodyContentWith i x = false) ∧
        idx.confluenceBodyContents.get i = some (bodyContentOf o) := by
  obtain ⟨idx, hb, _, hlast⟩ := indexLoop_bodies objs i Index.empty hwf
  obtain ⟨before, o, after, hsplit, ho, hafter⟩ := exists_last (isBodyContentWith i) objs hi
  exact ⟨idx, hb, before, o, after, hsplit, ho, hafter, hlast before o after hsplit ho hafter⟩

/-- C18, at a dump with two BodyContent objects of the identity B1: the entry is
the body of the second. -/
theorem body_last_seen_wins_witness :
    (buildIndex [bodyObject (utf8 "B1") (utf8 "first"), bodyObject (utf8 "B2") (utf8 "other"),
        bodyObject (utf8 "B1") (utf8 "second")]).map
      (fun idx => idx.confluenceBodyContents.get (utf8 "B1")) =
        some (some ⟨utf8 "B1", utf8 "second"⟩) ∧
    ∃ idx, buildIndex [bodyObject (utf8 "B1") (utf8 "first"),
        bodyObject (utf8 "B2") (utf8 "other"), bodyObject (utf8 "B1") (utf8 "second")] =
          some idx ∧
      ∃ before o after, [bodyObject (utf8 "B1") (utf8 "first"),
          bodyObject (utf8 "B2") (utf8 "other"), bodyObject (utf8 "B1") (utf8 "second")] =
            before ++ o :: after ∧ isBodyContentWith (utf8 "B1") o = true ∧
        (∀ x ∈ after, isBodyContentWith (utf8 "B1") x = false) ∧
        idx.confluenceBodyContents.get (utf8 "B1") = some (bodyContentOf o) :=
  ⟨by decide,
    body_last_seen_wins [bodyObject (utf8 "B1") (utf8 "first"),
      bodyObject (utf8 "B2") (utf8 "other"), bodyObject (utf8 "B1") (utf8 "second")]
      (utf8 "B1") (by decide) (by decide)⟩

/-- C13. At a page whose attachment list holds A1 and A2, both titled logo.png,
and whose body embeds logo.png once, the match produces two copy jobs, one for
each attachment in list order, with the same destination: the file of A2, the
last one, is the one that remains. -/
theorem title_collision_copies_all :
    migrate (utf8 "export/") (utf8 "out") id collisionDump =
      some [Effect.Mkdir (utf8 "out/Home"),
        Effect.Copy (utf8 "export/attachments/P1/A1/1") (utf8 "out/Home/logo.png"),
        Effect.Copy (utf8 "export/attachments/P1/A2/2") (utf8 "out/Home/logo.png"),
        Effect.WriteFile (utf8 "outHome.md")
          (utf8 "<img src=\"/logo.png\" alt=\"logo.png\">")] := by
  decide

/-! ## Idempotence of the slug -/

theorem toAscii_alnum (t : Bytes) (h : ∀ c ∈ t, isAlnum c = true) : toAscii t = t := by
  induction t with
  | nil => rfl
  | cons b rest ih =>
    have hb := h b (List.mem_cons_self _ _)
    have hne : b ≠ 195 := by
      simp only [isAlnum, isUpper, isDigit, isLower, Bool.or_eq_true, Bool.and_eq_true,
        decide_eq_true_eq] at hb
      omega
    rw [toAscii_other b rest hne, ih (fun c hc => h c (List.mem_cons_of_mem _ hc))]

theorem slugScan_false_alnum (w : Bytes) (h : ∀ c ∈ w, isAlnum c = true) :
    slugScan false w = w := by
  induction w with
  | nil => rfl
  | cons b rest ih =>
    have hb := h b (List.mem_cons_self _ _)
    simp [slugScan, hb, ih (fun c hc => h c (List.mem_cons_of_mem _ hc))]

theorem slugScan_true_head (u : Bytes) :
    slugScan true u = [] ∨ ∃ b w, isAlnum b = true ∧ slugScan true u = toTitle b :: w := by
  induction u with
  | nil => exact Or.inl rfl
  | cons b rest ih =>
    by_cases hb : isAlnum b = true
    · exact Or.inr ⟨b, slugScan false rest, hb, by simp [slugScan, hb]⟩
    · have hb2 : isAlnum b = false := by simpa using hb
      simpa [slugScan, hb2] using ih

theorem toTitle_toTitle (b : Nat) : toTitle (toTitle b) = toTitle b := by
  unfold toTitle isLower
  by_cases h : 97 ≤ b ∧ b ≤ 122
  · have h2 : ¬ (97 ≤ b - 32 ∧ b - 32 ≤ 122) := by omega
    simp [h]
    omega
  · simp [h]

/-- C17. The function slugify is idempotent: a slug holds ASCII letters and digits
only and, when it is not empty, starts with an upper-case letter or a digit, and
a second pass returns it as it is. -/
theorem slugify_idempotent (s : Bytes) :
    slugify (slugify s) = slugify s ∧
    (∀ c ∈ slugify s, isAlnum c = true) ∧
    (∀ c w, slugify s = c :: w → isUpper c = true ∨ isDigit c = true) := by
  have hal : ∀ c ∈ slugify s, isAlnum c = true := by
    intro c hc
    rw [slugify_eq_scan] at hc
    exact slugScan_alnum true _ c hc
  have hhead : ∀ c w, slugify s = c :: w → toTitle c = c ∧
      (isUpper c = true ∨ isDigit c = true) := by
    intro c w hcw
    rw [slugify_eq_scan] at hcw
    rcases slugScan_true_head (toAscii s) with h | ⟨b, w2, hb, h⟩
    · rw [h] at hcw; cases hcw
    · rw [h] at hcw
      simp only [List.cons.injEq] at hcw
      obtain ⟨rfl, _⟩ := hcw
      refine ⟨toTitle_toTitle b, ?_⟩
      simp only [isAlnum, isUpper, isDigit, isLower, Bool.or_eq_true, Bool.and_eq_true,
        decide_eq_true_eq] at hb
      unfold toTitle isLower isUpper isDigit
      by_cases hl : 97 ≤ b ∧ b ≤ 122
      · simp [hl]; omega
      · simp [hl]; omega
  refine ⟨?_, hal, fun c w h => (hhead c w h).2⟩
  rw [slugify_eq_scan (slugify s), toAscii_alnum _ hal]
  cases hs : slugify s with
  | nil => rfl
  | cons c w =>
    have hc : isAlnum c = true := hal c (by rw [hs]; exact List.mem_cons_self _ _)
    have hw : ∀ x ∈ w, isAlnum x = true :=
      fun x hx => hal x (by rw [hs]; exact List.mem_cons_of_mem _ hx)
    simp only [slugScan, hc, if_true]
    rw [(hhead c w hs).1, slugScan_false_alnum w hw]

/-- C17, at the title für alle: the slug FuerAlle starts with F and is its own
slug. -/
theorem slugify_idempotent_witness :
    slugify (utf8 "für alle") = utf8 "FuerAlle" ∧
    slugify (slugify (utf8 "für alle")) = slugify (utf8 "für alle") ∧
    (isUpper 70 = true ∨ isDigit 70 = true) :=
  ⟨by decide, (slugify_idempotent (utf8 "für alle")).1,
    (slugify_idempotent (utf8 "für alle")).2.2 70 (utf8 "uerAlle") (by decide)⟩

/-! ## Unresolved embed tags -/

theorem imageMatch_group (src : Bytes) (n : Nat) (g : Bytes) (h : imageMatch src = some (n, g)) :
    g ≠ [] := by
  unfold imageMatch at h
  split at h
  · dsimp only at h
    split at h
    · cases h
    · rename_i hlen
      split at h
      · simp only [Option.some.injEq, Prod.mk.injEq] at h
        obtain ⟨_, rfl⟩ := h
        intro e
        exact hlen (by rw [e]; rfl)
      · cases h
  · cases h

theorem findAllGo_group (src : Bytes) :
    ∀ (k : Nat), ∀ m ∈ findAllGo imageMatch k src, m.2 ≠ [] := by
  induction src with
  | nil => intro k m hm; cases k <;> simp [findAllGo] at hm
  | cons b rest ih =>
    intro k m hm
    cases k with
    | succ k => exact ih k m (by simpa [findAllGo] using hm)
    | zero =>
      rw [findAllGo] at hm
      cases hmatch : imageMatch (b :: rest) with
      | none =>
        rw [hmatch] at hm
        exact ih 0 m hm
      | some r =>
        obtain ⟨n, g⟩ := r
        rw [hmatch] at hm
        rcases List.mem_cons.mp hm with e | e
        · rw [e]
          exact imageMatch_group _ n g hmatch
        · exact ih _ m e

theorem attStep_unresolved (exportDir outputDir : Bytes) (atts : GoMap ConfluenceAttachment)
    (page : ConfluencePage) (w : WikiPage) (m : Bytes × Bytes) (hm : m.2 ≠ [])
    (refs : List Element)
    (h : ∀ att ∈ refs, ∀ a, atts.get att.Id = some a → a.Title ≠ m.2)
    (st : Bytes × List Effect) :
    refs.foldl (attStep exportDir outputDir atts page w m) st = st := by
  induction refs generalizing st with
  | nil => rfl
  | cons att rest ih =>
    have hstep : attStep exportDir outputDir atts page w m st att = st := by
      unfold attStep GoMap.getD
      cases hg : atts.get att.Id with
      | none =>
        have : ¬ ([] : Bytes) = m.2 := fun e => hm e.symm
        simp [this]
      | some a =>
        have := h att (List.mem_cons_self _ _) a hg
        simp [this]
    rw [List.foldl_cons, hstep]
    exact ih (fun x hx => h x (List.mem_cons_of_mem _ hx)) st

theorem resolvesTo_false (atts : GoMap ConfluenceAttachment) (page : ConfluencePage)
    (name : Bytes) (h : resolvesTo atts page name = false) :
    ∀ att ∈ page.Attachments, ∀ a, atts.get att.Id = some a → a.Title ≠ name := by
  intro att hatt a hg
  unfold resolvesTo at h
  rw [List.any_eq_false] at h
  have := h att hatt
  rw [hg] at this
  simpa using this

/-- C12, amended. A match of the embed tag whose file name is the title of no
record that the attachment references of the page resolve to, references of
absent identity included, is passed over: the body is left as it is and no copy
job is added, only the directory of the page is made.  When this holds of every
match found in the stored body, the rewritten body is the stored body. -/
theorem unresolved_embed_untouched (exportDir outputDir : Bytes) (idx : Index)
    (page : ConfluencePage) :
    (∀ m ∈ regexFindAllSubmatch imageMatch (storedBody idx page),
      resolvesTo idx.confluenceAttachments page m.2 = false →
      ∀ st : Bytes × List Effect,
        matchStep exportDir outputDir idx.confluenceAttachments page (wikiPageOf page) st m =
          (st.1, st.2 ++ [Effect.Mkdir
            (outputDir ++ (wikiPageOf page).Path ++ (wikiPageOf page).Filename)])) ∧
    ((∀ m ∈ regexFindAllSubmatch imageMatch (storedBody idx page),
        resolvesTo idx.confluenceAttachments page m.2 = false) →
      rewriteEmbeds exportDir outputDir idx page =
        (storedBody idx page,
          (regexFindAllSubmatch imageMatch (storedBody idx page)).map (fun _ =>
            Effect.Mkdir
              (outputDir ++ (wikiPageOf page).Path ++ (wikiPageOf page).Filename)))) := by
  have hstep : ∀ m ∈ regexFindAllSubmatch imageMatch (storedBody idx page),
      resolvesTo idx.confluenceAttachments page m.2 = false →
      ∀ st : Bytes × List Effect,
        matchStep exportDir outputDir idx.confluenceAttachments page (wikiPageOf page) st m =
          (st.1, st.2 ++ [Effect.Mkdir
            (outputDir ++ (wikiPageOf page).Path ++ (wikiPageOf page).Filename)]) := by
    intro m hm hres st
    unfold matchStep
    exact attStep_unresolved exportDir outputDir _ page _ m
      (findAllGo_group _ 0 m hm) page.Attachments (resolvesTo_false _ page m.2 hres) _
  refine ⟨hstep, ?_⟩
  intro hall
  have hfold : ∀ (ms : List (Bytes × Bytes)) (st : Bytes × List Effect),
      (∀ m ∈ ms, m ∈ regexFindAllSubmatch imageMatch (storedBody idx page)) →
      ms.foldl (matchStep exportDir outputDir idx.confluenceAttachments page (wikiPageOf page))
          st =
        (st.1, st.2 ++ ms.map (fun _ => Effect.Mkdir
          (outputDir ++ (wikiPageOf page).Path ++ (wikiPageOf page).Filename))) := by
    intro ms
    induction ms with
    | nil => intro st _; simp
    | cons m rest ih =>
      intro st hsub
      have hm := hsub m (List.mem_cons_self _ _)
      rw [List.foldl_cons, hstep m hm (hall m hm) st,
        ih _ (fun x hx => hsub x (List.mem_cons_of_mem _ hx))]
      simp
  have := hfold (regexFindAllSubmatch imageMatch (storedBody idx page))
    (storedBody idx page, []) (fun m hm => hm)
  simpa [rewriteEmbeds, storedBody] using this

/-- C12, at the page of the scenario with a body that embeds photo.png, which no
attachment of the page is titled. -/
theorem unresolved_embed_untouched_witness :
    rewriteEmbeds (utf8 "export/") (utf8 "out")
        (homeIndex [] (embedTag (utf8 "photo.png"))) homePage =
      (embedTag (utf8 "photo.png"), [Effect.Mkdir (utf8 "out/Home")]) :=
  ((unresolved_embed_untouched (utf8 "export/") (utf8 "out")
    (homeIndex [] (embedTag (utf8 "photo.png"))) homePage).2 (by decide)).trans (by decide)

/-- C12, as stated, fails: the embed tag of `openingName` is found in the body
and resolves to no attachment, yet the rewriting of the tag of `closingName`,
which overlaps it, removes its only occurrence. -/
theorem unresolved_embed_overwritten :
    buildIndex overlapDump = some overlapIndex ∧
    (embedTag openingName, openingName) ∈
      regexFindAllSubmatch imageMatch (storedBody overlapIndex overlapPage) ∧
    resolvesTo overlapIndex.confluenceAttachments overlapPage openingName = false ∧
    occursIn (embedTag openingName) (storedBody overlapIndex overlapPage) = true ∧
    occursIn (embedTag openingName)
      (rewriteEmbeds (utf8 "export/") (utf8 "out") overlapIndex overlapPage).1 = false := by
  refine ⟨rfl, by decide, by decide, by decide, by decide⟩

/-! ## The stripping of span attributes -/

theorem spanOpen_eq : spanOpen = [60, 115, 112, 97, 110] := by decide

theorem attrValueClose_nil : attrValueClose [] = none := rfl

theorem attrMatch_unfold (src : Bytes) :
    attrMatch src =
      if spanOpen.isPrefixOf src then
        match src.drop 5 with
        | 62 :: _ => some 6
        | 32 :: rest =>
          if (rest.takeWhile isLower).length = 0 then none
          else
            match attrValueClose (rest.drop (rest.takeWhile isLower).length) with
            | some k => some (5 + 1 + (rest.takeWhile isLower).length + k)
            | none => none
        | _ => none
      else none := rfl

theorem spanOpen_prefix (g : Bytes) (h : spanOpen.isPrefixOf g = true) :
    ∃ tl, g = 60 :: 115 :: 112 :: 97 :: 110 :: tl := by
  rw [spanOpen_eq] at h
  match g, h with
  | a :: b :: c :: d :: e :: tl, h =>
    simp [List.isPrefixOf] at h
    obtain ⟨rfl, rfl, rfl, rfl, rfl⟩ := h
    exact ⟨tl, rfl⟩
  | [], h => simp [List.isPrefixOf] at h
  | [_], h => simp [List.isPrefixOf] at h
  | [_, _], h => simp [List.isPrefixOf] at h
  | [_, _, _], h => simp [List.isPrefixOf] at h
  | [_, _, _, _], h => simp [List.isPrefixOf] at h

theorem attrMatch_append (g r : Bytes) (k : Nat) (h : attrMatch g = some k) :
    attrMatch (g ++ r) = some k := by
  rw [attrMatch_unfold] at h
  by_cases hp : spanOpen.isPrefixOf g = true
  · obtain ⟨tl, rfl⟩ := spanOpen_prefix g hp
    rw [if_pos hp] at h
    have hp2 : spanOpen.isPrefixOf (60 :: 115 :: 112 :: 97 :: 110 :: tl ++ r) = true := by
      rw [spanOpen_eq]
      simp [List.isPrefixOf]
    rw [attrMatch_unfold, if_pos hp2]
    simp only [List.cons_append, List.drop_succ_cons, List.drop_zero] at h ⊢
    split at h
    · rename_i tl2
      simp only [List.cons_append]
      exact h
    · rename_i rest
      simp only [List.cons_append]
      by_cases hn : (rest.takeWhile isLower).length = 0
      · rw [if_pos hn] at h; cases h
      · rw [if_neg hn] at h
        cases hav : attrValueClose (rest.drop (rest.takeWhile isLower).length) with
        | none => rw [hav] at h; cases h
        | some k2 =>
          rw [hav] at h
          cases hd : rest.drop (rest.takeWhile isLower).length with
          | nil => rw [hd, attrValueClose_nil] at hav; cases hav
          | cons x xs =>
            have h1 := takeWhile_append_stop isLower rest r x xs hd
            have h2 := drop_span_append isLower rest r x xs hd
            rw [h1] at h2
            have h3 := attrValueClose_append _ r k2 hav
            rw [hd] at h3
            simp only [List.cons_append] at h3
            simp only [h1, h2, if_neg hn, h3]
            exact h
    · cases h
  · rw [if_neg hp] at h
    cases h

theorem occursIn_cons (pat : Bytes) (b : Nat) (t : Bytes) (h : occursIn pat (b :: t) = false) :
    pat.isPrefixOf (b :: t) = false ∧ occursIn pat t = false := by
  unfold occursIn at h ⊢
  simp only [List.tails, List.any_cons, Bool.or_eq_false_iff] at h
  exact h

theorem spanOpen_not_across (b : Nat) (t next : Bytes)
    (h : spanOpen.isPrefixOf (b :: t) = false)
    (hnext : next = [] ∨ ∃ tl, next = 60 :: tl) :
    spanOpen.isPrefixOf (b :: t ++ next) = false := by
  rw [spanOpen_eq] at h ⊢
  match t, h with
  | c1 :: c2 :: c3 :: c4 :: tl, h =>
    simp only [List.cons_append, List.isPrefixOf] at h ⊢
    exact h
  | [], h =>
    rcases hnext with rfl | ⟨tl, rfl⟩ <;> simp [List.isPrefixOf]
  | [c1], h =>
    rcases hnext with rfl | ⟨tl, rfl⟩ <;> simp [List.isPrefixOf]
  | [c1, c2], h =>
    rcases hnext with rfl | ⟨tl, rfl⟩ <;> simp [List.isPrefixOf]
  | [c1, c2, c3], h =>
    rcases hnext with rfl | ⟨tl, rfl⟩ <;> simp [List.isPrefixOf]

theorem stripAttrs_text (t next : Bytes) (h : occursIn spanOpen t = false)
    (hnext : next = [] ∨ ∃ tl, next = 60 :: tl) :
    replaceAllGo attrMatch (utf8 "<span>") 0 (t ++ next) =
      t ++ replaceAllGo attrMatch (utf8 "<span>") 0 next := by
  induction t with
  | nil => rfl
  | cons b tl ih =>
    obtain ⟨h1, h2⟩ := occursIn_cons spanOpen b tl h
    have hno : attrMatch (b :: (tl ++ next)) = none := by
      rw [attrMatch_unfold]
      have := spanOpen_not_across b tl next h1 hnext
      simp only [List.cons_append] at this
      rw [this]
      rfl
    show replaceAllGo attrMatch (utf8 "<span>") 0 (b :: (tl ++ next)) = _
    rw [replaceAllGo, hno]
    simp only
    rw [ih h2]
    rfl

theorem stripAttrs_tag (g rest : Bytes) (h : attrMatch g = some g.length) :
    replaceAllGo attrMatch (utf8 "<span>") 0 (g ++ rest) =
      utf8 "<span>" ++ replaceAllGo attrMatch (utf8 "<span>") 0 rest := by
  cases g with
  | nil => simp [attrMatch_unfold, spanOpen_eq, List.isPrefixOf] at h
  | cons b tl =>
    have happ := attrMatch_append (b :: tl) rest _ h
    simp only [List.cons_append] at happ
    show replaceAllGo attrMatch (utf8 "<span>") 0 (b :: (tl ++ rest)) = _
    rw [replaceAllGo, happ]
    simp only [List.length_cons, Nat.add_sub_cancel]
    rw [replaceAllGo_skip]
    simp

theorem attrMatch_head (g : Bytes) (k : Nat) (h : attrMatch g = some k) :
    ∃ tl, g = 60 :: tl := by
  rw [attrMatch_unfold] at h
  by_cases hp : spanOpen.isPrefixOf g = true
  · obtain ⟨tl, rfl⟩ := spanOpen_prefix g hp
    exact ⟨_, rfl⟩
  · rw [if_neg hp] at h
    cases h

/-- For a body made of text runs in which `<span` does not occur, each followed
by an opening span tag that the pattern matches in full, and of a last text
run, the pass returns the body with each of these tags replaced by the bare tag
and every text run as it was. -/
theorem stripAttrs_one_attribute_tags (pieces : List (Bytes × Bytes)) (last : Bytes)
    (hp : ∀ p ∈ pieces, occursIn spanOpen p.1 = false ∧ attrMatch p.2 = some p.2.length)
    (hl : occursIn spanOpen last = false) :
    stripAttrs ((pieces.map (fun p => p.1 ++ p.2)).flatten ++ last) =
      (pieces.map (fun p => p.1 ++ utf8 "<span>")).flatten ++ last := by
  unfold stripAttrs regexReplaceAll
  induction pieces with
  | nil =>
    have := stripAttrs_text last [] hl (Or.inl rfl)
    simpa [replaceAllGo] using this
  | cons p rest ih =>
    obtain ⟨h1, h2⟩ := hp p (List.mem_cons_self _ _)
    have ih2 := ih (fun q hq => hp q (List.mem_cons_of_mem _ hq))
    obtain ⟨tl, htl⟩ := attrMatch_head p.2 _ h2
    simp only [List.map_cons, List.flatten_cons, List.append_assoc]
    rw [stripAttrs_text p.1 _ h1 (Or.inr ⟨tl ++ ((rest.map (fun p => p.1 ++ p.2)).flatten ++ last),
      by rw [htl]; rfl⟩), stripAttrs_tag p.2 _ h2, ih2]

/-! ### Span tags by their number of attributes -/

theorem TagAttr.text_eq (a : TagAttr) :
    a.text = 32 :: (a.name ++ 61 :: 34 :: (a.value ++ [34])) := rfl

theorem spanTag_cons (a : TagAttr) (attrs : List TagAttr) (rest : Bytes) :
    spanTag (a :: attrs) ++ rest =
      60 :: 115 :: 112 :: 97 :: 110 :: 32 ::
        (a.name ++ 61 :: 34 :: (a.value ++ 34 ::
          (((attrs.map TagAttr.text).flatten ++ [62]) ++ rest))) := by
  show utf8 "<span" ++ (((a :: attrs).map TagAttr.text).flatten ++ utf8 ">") ++ rest = _
  have h1 : utf8 "<span" = [60, 115, 112, 97, 110] := by decide
  have h2 : utf8 ">" = [62] := by decide
  rw [h1, h2]
  simp [TagAttr.text_eq, List.append_assoc]

theorem takeWhile_run (p : Nat → Bool) (l : Bytes) (x : Nat) (r : Bytes)
    (hl : ∀ b ∈ l, p b = true) (hx : p x = false) :
    ((l ++ x :: r).takeWhile p).length = l.length ∧
      (l ++ x :: r).drop l.length = x :: r := by
  induction l with
  | nil => simp [List.takeWhile, hx]
  | cons b tl ih =>
    have hb := hl b (List.mem_cons_self _ _)
    have := ih (fun c hc => hl c (List.mem_cons_of_mem _ hc))
    simp [List.takeWhile, hb, this.1]

theorem attrValueClose_closed (value tl : Bytes) (hne : value ≠ [])
    (hv : ∀ b ∈ value, notQuote b = true) :
    attrValueClose (61 :: 34 :: (value ++ 34 :: 62 :: tl)) = some (2 + value.length + 2) := by
  obtain ⟨h1, h2⟩ := takeWhile_run notQuote value 34 (62 :: tl) hv (by decide)
  have hlen : value.length ≠ 0 := fun e => hne (List.eq_nil_of_length_eq_zero e)
  rw [attrValueClose]
  simp only [h1, if_neg hlen, h2]

theorem attrValueClose_open (value : Bytes) (x : Nat) (tl : Bytes) (hne : value ≠ [])
    (hv : ∀ b ∈ value, notQuote b = true) (hx : x ≠ 62) :
    attrValueClose (61 :: 34 :: (value ++ 34 :: x :: tl)) = none := by
  obtain ⟨h1, h2⟩ := takeWhile_run notQuote value 34 (x :: tl) hv (by decide)
  have hlen : value.length ≠ 0 := fun e => hne (List.eq_nil_of_length_eq_zero e)
  rw [attrValueClose]
  simp only [h1, if_neg hlen, h2]
  split
  · rename_i heq
    simp only [List.cons.injEq, true_and] at heq
    exact absurd heq.1 hx
  · rfl

theorem attrMatch_attr (a : TagAttr) (T : Bytes) (ha : a.plain) (r : Option Nat)
    (hr : attrValueClose (61 :: 34 :: (a.value ++ 34 :: T)) = r) :
    attrMatch (60 :: 115 :: 112 :: 97 :: 110 :: 32 ::
        (a.name ++ 61 :: 34 :: (a.value ++ 34 :: T))) =
      r.map (fun k => 5 + 1 + a.name.length + k) := by
  obtain ⟨hn, hlow, hv, hval⟩ := ha
  have hnlen : a.name.length ≠ 0 := fun e => hn (List.eq_nil_of_length_eq_zero e)
  obtain ⟨h1, h2⟩ := takeWhile_run isLower a.name 61 (34 :: (a.value ++ 34 :: T))
    hlow (by decide)
  rw [attrMatch_unfold]
  have hp : spanOpen.isPrefixOf (60 :: 115 :: 112 :: 97 :: 110 :: 32 ::
      (a.name ++ 61 :: 34 :: (a.value ++ 34 :: T))) = true := by
    rw [spanOpen_eq]
    simp [List.isPrefixOf]
  rw [if_pos hp]
  simp only [List.drop_succ_cons, List.drop_zero, h1, if_neg hnlen, h2, hr]
  cases r <;> rfl

theorem attrMatch_one (a : TagAttr) (rest : Bytes) (ha : a.plain) :
    attrMatch (spanTag [a] ++ rest) =
      some (5 + 1 + a.name.length + (2 + a.value.length + 2)) := by
  have h : (([] : List TagAttr).map TagAttr.text).flatten ++ [62] ++ rest = 62 :: rest := rfl
  rw [spanTag_cons, h, attrMatch_attr a _ ha _
    (attrValueClose_closed a.value rest ha.2.2.1 (fun b hb => (ha.2.2.2 b hb).1))]
  rfl

theorem attrMatch_several (a a2 : TagAttr) (more : List TagAttr) (rest : Bytes)
    (ha : a.plain) : attrMatch (spanTag (a :: a2 :: more) ++ rest) = none := by
  have h : ((a2 :: more).map TagAttr.text).flatten ++ [62] ++ rest =
      32 :: ((a2.name ++ 61 :: 34 :: (a2.value ++ [34])) ++
        (((more.map TagAttr.text).flatten ++ [62]) ++ rest)) := by
    simp [TagAttr.text_eq, List.append_assoc]
  rw [spanTag_cons, h, attrMatch_attr a _ ha _
    (attrValueClose_open a.value 32 _ ha.2.2.1 (fun b hb => (ha.2.2.2 b hb).1) (by decide))]
  rfl

theorem spanTag_length (a : TagAttr) :
    (spanTag [a]).length = 5 + 1 + a.name.length + (2 + a.value.length + 2) := by
  have := spanTag_cons a [] []
  simp only [List.append_nil] at this
  rw [this]
  simp
  omega

theorem attrMatch_head_ne (b : Nat) (rest : Bytes) (h : b ≠ 60) :
    attrMatch (b :: rest) = none := by
  rw [attrMatch_unfold]
  have : spanOpen.isPrefixOf (b :: rest) = false := by
    rw [spanOpen_eq]
    have h2 : ¬ 60 = b := fun e => h e.symm
    simp [List.isPrefixOf, h2]
  rw [this]
  rfl

theorem TagAttr.text_plain (a : TagAttr) (ha : a.plain) : ∀ b ∈ a.text, b ≠ 60 := by
  obtain ⟨_, hlow, _, hval⟩ := ha
  intro b hb
  rw [TagAttr.text_eq] at hb
  simp only [List.mem_cons, List.mem_append, List.mem_singleton, List.not_mem_nil,
    or_false] at hb
  rcases hb with rfl | hb | rfl | rfl | hb | rfl
  · decide
  · have := hlow b hb
    simp only [isLower, Bool.and_eq_true, decide_eq_true_eq] at this
    omega
  · decide
  · decide
  · exact (hval b hb).2
  · decide

theorem spanTag_plain (attrs : List TagAttr) (h : ∀ a ∈ attrs, a.plain) :
    ∃ tail, spanTag attrs = 60 :: tail ∧ ∀ b ∈ tail, b ≠ 60 := by
  refine ⟨115 :: 112 :: 97 :: 110 :: ((attrs.map TagAttr.text).flatten ++ [62]), rfl, ?_⟩
  intro b hb
  simp only [List.mem_cons, List.mem_append, List.mem_singleton, List.not_mem_nil,
    or_false] at hb
  rcases hb with rfl | rfl | rfl | rfl | hb | rfl
  · decide
  · decide
  · decide
  · decide
  · obtain ⟨l, hl, hin⟩ := List.mem_flatten.mp hb
    obtain ⟨a, ha, rfl⟩ := List.mem_map.mp hl
    exact TagAttr.text_plain a (h a ha) b hin
  · decide

theorem stripAttrs_plain_run (t rest : Bytes) (h : ∀ b ∈ t, b ≠ 60) :
    replaceAllGo attrMatch (utf8 "<span>") 0 (t ++ rest) =
      t ++ replaceAllGo attrMatch (utf8 "<span>") 0 rest := by
  induction t with
  | nil => rfl
  | cons b tl ih =>
    show replaceAllGo attrMatch (utf8 "<span>") 0 (b :: (tl ++ rest)) = _
    rw [replaceAllGo, attrMatch_head_ne b (tl ++ rest) (h b (List.mem_cons_self _ _))]
    simp only
    rw [ih (fun c hc => h c (List.mem_cons_of_mem _ hc))]
    rfl

/-- The pass at an opening span tag with attributes of the plain shape, followed
by any input: the tag with no attribute or with one is replaced by the bare tag,
the tag with two attributes or more is not matched and is copied as it is; the
pass goes on after the tag. -/
theorem stripAttrs_spanTag (attrs : List TagAttr) (rest : Bytes) (h : ∀ a ∈ attrs, a.plain) :
    replaceAllGo attrMatch (utf8 "<span>") 0 (spanTag attrs ++ rest) =
      (if attrs.length ≤ 1 then utf8 "<span>" else spanTag attrs) ++
        replaceAllGo attrMatch (utf8 "<span>") 0 rest := by
  match attrs, h with
  | [], _ =>
    exact stripAttrs_tag (spanTag []) rest (by decide)
  | [a], h =>
    have h1 : a.plain := h a (List.mem_cons_self _ _)
    have hm : attrMatch (spanTag [a]) = some (spanTag [a]).length := by
      have := attrMatch_one a [] h1
      rw [List.append_nil] at this
      rw [this, spanTag_length]
    exact stripAttrs_tag (spanTag [a]) rest hm
  | a1 :: a2 :: more, h =>
    have h1 : a1.plain := h a1 (List.mem_cons_self _ _)
    have hno := attrMatch_several a1 a2 more rest h1
    obtain ⟨tail, htag, htail⟩ := spanTag_plain (a1 :: a2 :: more) h
    have hlen : ¬ (a1 :: a2 :: more).length ≤ 1 := by
      simp only [List.length_cons]
      omega
    rw [if_neg hlen]
    rw [htag] at hno ⊢
    show replaceAllGo attrMatch (utf8 "<span>") 0 (60 :: (tail ++ rest)) = _
    rw [replaceAllGo]
    simp only [List.cons_append] at hno
    rw [hno]
    simp only
    rw [stripAttrs_plain_run tail rest htail]
    rfl

/-- C14. For a body made of text runs in which `<span` does not occur, each
followed by an opening span tag whose attributes, in any number, have each a
name of lower-case letters and a value without double quote and without `<`,
and of a last text run: the pass replaces by the bare tag the tags with no
attribute or with one, and returns as they are, with all their attributes, the
tags with two attributes or more; every text run is returned as it was. -/
theorem span_several_attributes_kept (pieces : List (Bytes × List TagAttr)) (last : Bytes)
    (hp : ∀ p ∈ pieces, occursIn spanOpen p.1 = false ∧ ∀ a ∈ p.2, a.plain)
    (hl : occursIn spanOpen last = false) :
    stripAttrs ((pieces.map (fun p => p.1 ++ spanTag p.2)).flatten ++ last) =
      (pieces.map (fun p =>
        p.1 ++ (if p.2.length ≤ 1 then utf8 "<span>" else spanTag p.2))).flatten ++ last := by
  unfold stripAttrs regexReplaceAll
  induction pieces with
  | nil =>
    have := stripAttrs_text last [] hl (Or.inl rfl)
    simpa [replaceAllGo] using this
  | cons p rest ih =>
    obtain ⟨h1, h2⟩ := hp p (List.mem_cons_self _ _)
    have ih2 := ih (fun q hq => hp q (List.mem_cons_of_mem _ hq))
    obtain ⟨tail, htag, _⟩ := spanTag_plain p.2 h2
    simp only [List.map_cons, List.flatten_cons, List.append_assoc]
    rw [stripAttrs_text p.1 _ h1
      (Or.inr ⟨tail ++ ((rest.map (fun p => p.1 ++ spanTag p.2)).flatten ++ last),
        by rw [htag]; rfl⟩),
      stripAttrs_spanTag p.2 _ h2, ih2]

/-- C14, at a body with a span tag of one attribute and a span tag of two, and
at the body made of the tag of two attributes, a text and the closing tag. -/
theorem span_several_attributes_kept_witness :
    stripAttrs (utf8 "<p><span class=\"a\">x</span> <span class=\"a\" id=\"b\">y</span></p>") =
      utf8 "<p><span>x</span> <span class=\"a\" id=\"b\">y</span></p>" ∧
    stripAttrs (utf8 "<span class=\"a\" id=\"b\">x</span>") =
      utf8 "<span class=\"a\" id=\"b\">x</span>" :=
  ⟨(span_several_attributes_kept
      [(utf8 "<p>", [⟨utf8 "class", utf8 "a"⟩]),
        (utf8 "x</span> ", [⟨utf8 "class", utf8 "a"⟩, ⟨utf8 "id", utf8 "b"⟩])]
      (utf8 "y</span></p>") (by decide) (by decide)).trans (by decide),
    (span_several_attributes_kept
      [([], [⟨utf8 "class", utf8 "a"⟩, ⟨utf8 "id", utf8 "b"⟩])]
      (utf8 "x</span>") (by decide) (by decide)).trans (by decide)⟩

/-! ## The revision as a path segment -/

theorem toUInt8_toNat (v : UInt32) : v.toUInt8.toNat = v.toNat % 256 := by
  simp [UInt32.toUInt8, Nat.toUInt8, UInt8.ofNat, UInt8.toNat]

theorem shiftRight_toNat (v : UInt32) :
    (v >>> 6).toNat = v.toNat / 64 ∧ (v >>> 12).toNat = v.toNat / 4096 ∧
    (v >>> 18).toNat = v.toNat / 262144 := by
  have h6 : (UInt32.mod 6 32).toBitVec.toNat = 6 := by decide
  have h12 : (UInt32.mod 12 32).toBitVec.toNat = 12 := by decide
  have h18 : (UInt32.mod 18 32).toBitVec.toNat = 18 := by decide
  refine ⟨?_, ?_, ?_⟩
  · show v.toBitVec.toNat >>> (UInt32.mod 6 32).toBitVec.toNat = _
    rw [h6, Nat.shiftRight_eq_div_pow]
    rfl
  · show v.toBitVec.toNat >>> (UInt32.mod 12 32).toBitVec.toNat = _
    rw [h12, Nat.shiftRight_eq_div_pow]
    rfl
  · show v.toBitVec.toNat >>> (UInt32.mod 18 32).toBitVec.toNat = _
    rw [h18, Nat.shiftRight_eq_div_pow]
    rfl

theorem nat_masks (x : Nat) :
    (x &&& 63) ||| 128 = 128 + x % 64 ∧ (x &&& 31) ||| 192 = 192 + x % 32 ∧
    (x &&& 15) ||| 224 = 224 + x % 16 ∧ (x &&& 7) ||| 240 = 240 + x % 8 := by
  have a1 : x &&& 63 = x % 64 := Nat.and_pow_two_sub_one_eq_mod x 6
  have a2 : x &&& 31 = x % 32 := Nat.and_pow_two_sub_one_eq_mod x 5
  have a3 : x &&& 15 = x % 16 := Nat.and_pow_two_sub_one_eq_mod x 4
  have a4 : x &&& 7 = x % 8 := Nat.and_pow_two_sub_one_eq_mod x 3
  have b1 : x % 64 < 2 ^ 7 := by omega
  have b2 : x % 32 < 2 ^ 5 := by omega
  have b3 : x % 16 < 2 ^ 4 := by omega
  have b4 : x % 8 < 2 ^ 3 := by omega
  have c1 := Nat.mul_add_lt_is_or b1 1
  have c2 := Nat.mul_add_lt_is_or b2 6
  have c3 := Nat.mul_add_lt_is_or b3 14
  have c4 := Nat.mul_add_lt_is_or b4 30
  rw [a1, a2, a3, a4, Nat.or_comm (x % 64), Nat.or_comm (x % 32), Nat.or_comm (x % 16),
    Nat.or_comm (x % 8)]
  exact ⟨by simpa using c1.symm, by simpa using c2.symm, by simpa using c3.symm,
    by simpa using c4.symm⟩

theorem byte_masks (a : UInt8) :
    (a &&& 0x3f ||| 0x80).toNat = 128 + a.toNat % 64 ∧
    (a &&& 0x1f ||| 0xc0).toNat = 192 + a.toNat % 32 ∧
    (a &&& 0x0f ||| 0xe0).toNat = 224 + a.toNat % 16 ∧
    (a &&& 0x07 ||| 0xf0).toNat = 240 + a.toNat % 8 :=
  nat_masks a.toNat

theorem uint32_le (v : UInt32) :
    (v ≤ 0x7f ↔ v.toNat ≤ 0x7f) ∧ (v ≤ 0x7ff ↔ v.toNat ≤ 0x7ff) ∧
    (v ≤ 0xffff ↔ v.toNat ≤ 0xffff) := by
  have e1 : (UInt32.toBitVec 0x7f).toNat = 0x7f := by decide
  have e2 : (UInt32.toBitVec 0x7ff).toNat = 0x7ff := by decide
  have e3 : (UInt32.toBitVec 0xffff).toNat = 0xffff := by decide
  refine ⟨?_, ?_, ?_⟩
  · rw [UInt32.le_def, BitVec.le_def, e1]; rfl
  · rw [UInt32.le_def, BitVec.le_def, e2]; rfl
  · rw [UInt32.le_def, BitVec.le_def, e3]; rfl

theorem four_byte_arith (n : Nat) (h : n < 0x110000) :
    240 + n / 262144 = 240 + n / 262144 % 256 % 8 ∧
    128 + n / 4096 % 64 = 128 + n / 4096 % 256 % 64 ∧
    128 + n / 64 % 64 = 128 + n / 64 % 256 % 64 ∧
    128 + n % 64 = 128 + n % 256 % 64 := by
  refine ⟨?_, ?_, ?_, ?_⟩ <;> omega

theorem encodeRune_char (c : Char) :
    encodeRune c.toNat = (String.utf8EncodeChar c).map UInt8.toNat := by
  have hv : c.val.toNat < 0xD800 ∨ (0xDFFF < c.val.toNat ∧ c.val.toNat < 0x110000) := c.valid
  obtain ⟨s6, s12, s18⟩ := shiftRight_toNat c.val
  obtain ⟨l1, l2, l3⟩ := uint32_le c.val
  have b0 := byte_masks c.val.toUInt8
  have b6 := byte_masks (c.val >>> 6).toUInt8
  have b12 := byte_masks (c.val >>> 12).toUInt8
  have b18 := byte_masks (c.val >>> 18).toUInt8
  rw [toUInt8_toNat] at b0 b6 b12 b18
  rw [s6] at b6
  rw [s12] at b12
  rw [s18] at b18
  unfold String.utf8EncodeChar encodeRune Char.toNat
  simp only [l1, l2, l3]
  by_cases h1 : c.val.toNat ≤ 0x7f
  · have h1c : c.val.toNat < 0x80 := by omega
    simp only [if_pos h1, if_pos h1c, List.map_cons, List.map_nil, toUInt8_toNat,
      List.cons.injEq, and_true]
    omega
  · have h1c : ¬ c.val.toNat < 0x80 := by omega
    by_cases h2 : c.val.toNat ≤ 0x7ff
    · have h2c : c.val.toNat < 0x800 := by omega
      simp only [if_neg h1, if_neg h1c, if_pos h2, if_pos h2c, List.map_cons, List.map_nil,
        b0.1, b6.2.1, List.cons.injEq, and_true]
      omega
    · have h2c : ¬ c.val.toNat < 0x800 := by omega
      have hsur : ¬ ((0xD800 ≤ c.val.toNat ∧ c.val.toNat ≤ 0xDFFF) ∨ 0x10FFFF < c.val.toNat) := by
        omega
      by_cases h3 : c.val.toNat ≤ 0xffff
      · have h3c : c.val.toNat < 0x10000 := by omega
        simp only [if_neg h1, if_neg h1c, if_neg h2, if_neg h2c, if_neg hsur, if_pos h3,
          if_pos h3c, List.map_cons, List.map_nil, b0.1, b6.1, b12.2.2.1, List.cons.injEq,
          and_true]
        omega
      · have h3c : ¬ c.val.toNat < 0x10000 := by omega
        simp only [if_neg h1, if_neg h1c, if_neg h2, if_neg h2c, if_neg hsur, if_neg h3,
          if_neg h3c, List.map_cons, List.map_nil, b0.1, b6.1, b12.1, b18.2.2.2,
          List.cons.injEq, and_true]
        exact four_byte_arith c.val.toNat (by omega)

/-- C16. Revision path segment: the copy job of an attachment has the source path
made of the export root, attachments/, the identity of the page, the identity
of the attachment and, as last segment, the conversion of the stored revision to
a string: for a Unicode character it is the UTF-8 encoding of the character
whose code point is the revision, not its decimal digits (for a surrogate or a
number above U+10FFFF Go writes U+FFFD).  Composed with decoding, a version text
that starts with an ASCII byte gives that one character as segment, so a
one-character text is given back and a longer one is cut to its first
character. -/
theorem revision_path_segment :
    (∀ (exportDir outputDir : Bytes) (atts : GoMap ConfluenceAttachment)
        (page : ConfluencePage) (w : WikiPage) (m : Bytes × Bytes) (st : Bytes × List Effect)
        (att : Element),
      (atts.getD att.Id ⟨[], [], 0⟩).Title = m.2 →
      (attStep exportDir outputDir atts page w m st att).2 =
        st.2 ++ [Effect.Copy
          (exportDir ++ utf8 "attachments/" ++ page.Id ++ utf8 "/" ++
            (atts.getD att.Id ⟨[], [], 0⟩).Id ++ utf8 "/" ++
            encodeRune (atts.getD att.Id ⟨[], [], 0⟩).Version)
          (outputDir ++ w.Path ++ w.Filename ++ utf8 "/" ++
            (atts.getD att.Id ⟨[], [], 0⟩).Title)]) ∧
    (∀ c : Char, encodeRune c.toNat = (String.utf8EncodeChar c).map UInt8.toNat) ∧
    (∀ n : Nat, (0xD800 ≤ n ∧ n ≤ 0xDFFF) ∨ 0x10FFFF < n → encodeRune n = [0xEF, 0xBF, 0xBD]) ∧
    (∀ (c : Nat) (rest : Bytes), c < 0x80 → encodeRune (Uvarint (c :: rest)).1 = [c]) ∧
    encodeRune 12 = [12] ∧ utf8 "12" = [49, 50] := by
  refine ⟨?_, encodeRune_char, ?_, ?_, by decide, by decide⟩
  · intro exportDir outputDir atts page w m st att h
    unfold attStep
    dsimp only
    rw [if_pos h]
    rfl
  · intro n h
    unfold encodeRune
    have h1 : ¬ n < 0x80 := by omega
    have h2 : ¬ n < 0x800 := by omega
    rw [if_neg h1, if_neg h2, if_pos h]
  · intro c rest hc
    have h1 : (Uvarint (c :: rest)).1 = c := by
      simp [Uvarint, uvarintLoop, hc]
      omega
    rw [h1]
    simp [encodeRune, hc]

/-- C16, at the attachment of the scenario, whose version text is 1, at the
character é and at the version text 12. -/
theorem revision_path_segment_witness :
    (attStep (utf8 "export/") (utf8 "out") (homeIndex [] []).confluenceAttachments homePage
        (wikiPageOf homePage) (utf8 "tag", utf8 "logo.png") ([], [])
        ⟨utf8 "Attachment", utf8 "com.atlassian.confluence.pages", utf8 "A2"⟩).2 =
      [Effect.Copy (utf8 "export/attachments/P2/A2/1") (utf8 "out/Home/logo.png")] ∧
    encodeRune 233 = utf8 "é" ∧
    encodeRune (Uvarint (utf8 "12")).1 = utf8 "1" :=
  ⟨(revision_path_segment.1 (utf8 "export/") (utf8 "out")
      (homeIndex [] []).confluenceAttachments homePage (wikiPageOf homePage)
      (utf8 "tag", utf8 "logo.png") ([], [])
      ⟨utf8 "Attachment", utf8 "com.atlassian.confluence.pages", utf8 "A2"⟩
      (by decide)).trans (by decide),
    by decide,
    (revision_path_segment.2.2.2.1 49 [50] (by decide)).trans (by decide)⟩

end Migrate
